import Mathlib

/-!
Verification development for the reviewer-suggestion engine in `src/index.js`.

JavaScript values are embedded as follows: strings are `String` (operations
are re-implemented over `List Char` by structural recursion so that they
evaluate inside the kernel), numbers are `ℚ` (every number the engine
manipulates is produced by exact arithmetic on inputs; no floating rounding
is exercised by the properties below), `null`/`undefined` are `Option`,
JavaScript `Map`s are insertion-ordered association lists, and JavaScript
`Set`s are insertion-ordered duplicate-free lists.
-/

namespace SuggestReviewer

/-- Occurrence check: `containsSubChars needle hay` is true iff `needle` is a
contiguous substring of `hay`; embeds JavaScript `String.prototype.includes`. -/
def containsSubChars (needle : List Char) : List Char → Bool
  | [] => needle.isPrefixOf []
  | c :: cs => needle.isPrefixOf (c :: cs) || containsSubChars needle cs

/-- JavaScript string `includes`. -/
def jsIncludes (hay sub : String) : Bool := containsSubChars sub.data hay.data

/-- JavaScript `String.prototype.startsWith`, at the character level so that
it evaluates by kernel reduction. -/
def jsStartsWith (s pre : String) : Bool := pre.data.isPrefixOf s.data

/-- Drop the first `n` characters of a string (JavaScript `slice(n)`). -/
def strDrop (s : String) (n : Nat) : String := String.mk (s.data.drop n)

/-- JavaScript `String.prototype.toLowerCase` (ASCII-faithful). -/
def jsToLower (s : String) : String := String.mk (s.data.map Char.toLower)

/-- JavaScript `String.prototype.trim` over the whitespace the engine meets. -/
def jsTrim (s : String) : String :=
  String.mk (((s.data.dropWhile Char.isWhitespace).reverse.dropWhile Char.isWhitespace).reverse)

/-- `isBotLogin` from src/index.js lines 9-13: a missing/empty login, a login
ending in "[bot]", containing "bot" case-insensitively, or equal to
"github-actions" is treated as a bot. -/
def isBotLogin (login : String) : Bool :=
  if login == "" then true
  else
    let l := jsToLower login
    ("[bot]".data.isSuffixOf login.data) || jsIncludes l "bot" || l == "github-actions"

/-- Stable ascending insertion used to embed `[...arr].sort((a, b) => a - b)`. -/
def insertAsc (x : ℚ) : List ℚ → List ℚ
  | [] => [x]
  | y :: ys => if x ≤ y then x :: y :: ys else y :: insertAsc x ys

/-- Ascending numeric sort, as produced by `sort((a, b) => a - b)`. -/
def sortAsc (l : List ℚ) : List ℚ := l.foldr insertAsc []

/-- `median` from src/index.js lines 24-29: `null` on the empty array, the
middle element of the sorted copy for odd length, the mean of the two middle
elements for even length. -/
def median (arr : List ℚ) : Option ℚ :=
  match arr with
  | [] => none
  | _ :: _ =>
    let s := sortAsc arr
    let mid := s.length / 2
    if s.length % 2 = 1 then some (s.getD mid 0)
    else some ((s.getD (mid - 1) 0 + s.getD mid 0) / 2)

/-! ### Glob matching (the `minimatch` dependency)

`ownersForFile` calls `minimatch(filePath, pat, { dot: true, nocase: false,
matchBase: true })`.  The fragment of minimatch semantics the engine relies
on is embedded here: the pattern and the path are split on `/`; a pattern
segment that is exactly `**` is a globstar matching zero or more path
segments (never `.` or `..`); inside a segment `*` matches any character
run, `?` one character, and other characters match literally and
case-sensitively (`nocase: false`); with `dot: true` there is no hidden-file
restriction; with `matchBase: true` a single-segment pattern is matched
against the last non-empty segment of the path.  Character classes, braces,
extglobs, escapes and negation are outside the fragment the repository's
patterns use and are treated as literal characters here. -/

/-- Glob match of one pattern segment against one path segment (`*`, `?`,
literals).  Fuel-indexed so that it evaluates by kernel reduction; the fuel
`p.length + s.length + 1` supplied by `matchSegChars` is sufficient since
every recursive call shrinks `p.length + s.length`. -/
def matchSegF : Nat → List Char → List Char → Bool
  | 0, _, _ => false
  | _ + 1, [], [] => true
  | _ + 1, [], _ :: _ => false
  | n + 1, '*' :: ps, s =>
    matchSegF n ps s ||
      (match s with
       | [] => false
       | _ :: cs => matchSegF n ('*' :: ps) cs)
  | n + 1, '?' :: ps, s =>
    (match s with
     | [] => false
     | _ :: cs => matchSegF n ps cs)
  | n + 1, c :: ps, s =>
    (match s with
     | [] => false
     | d :: cs => c == d && matchSegF n ps cs)

/-- Segment-level glob match with sufficient fuel. -/
def matchSegChars (p s : List Char) : Bool := matchSegF (p.length + s.length + 1) p s

/-- A parsed pattern segment: a globstar (`**` alone in a path portion) or an
ordinary glob segment. -/
inductive MSeg where
  | globstar
  | seg (p : List Char)

/-- One step of minimatch's `matchOne` over segment lists, fuel-indexed.  The
mode flag selects between the main walk (`false`) and the globstar
swallow loop (`true`).  A trailing globstar consumes all remaining segments
except `.`/`..`; a pattern exhausted against a single remaining empty path
segment (trailing slash) still matches. -/
def mmStep : Nat → Bool → List MSeg → List String → Bool
  | 0, _, _, _ => false
  | n + 1, false, ps, fs =>
    (match ps, fs with
     | [], [] => true
     | [], [f] => f == ""
     | [], _ :: _ :: _ => false
     | _ :: _, [] => false
     | MSeg.globstar :: ps2, f :: fs2 =>
       if ps2.isEmpty then (f :: fs2).all (fun g => g != "." && g != "..")
       else mmStep n true ps2 (f :: fs2)
     | MSeg.seg p :: ps2, f :: fs2 => matchSegChars p f.data && mmStep n false ps2 fs2)
  | n + 1, true, ps, fs =>
    (match fs with
     | [] => false
     | f :: fs2 =>
       mmStep n false ps fs || (if f == "." || f == ".." then false else mmStep n true ps fs2))

/-- Split a character list at every occurrence of `sep`, keeping empty parts
(the behaviour of JavaScript `split("/")`). -/
def splitOnChar (sep : Char) : List Char → List (List Char)
  | [] => [[]]
  | c :: cs =>
    let r := splitOnChar sep cs
    if c == sep then [] :: r
    else
      match r with
      | [] => [[c]]
      | h :: t => (c :: h) :: t

/-- Split a string into `/`-separated segments. -/
def splitSlash (s : String) : List String := (splitOnChar '/' s.data).map String.mk

/-- Parse a glob pattern into segment matchers. -/
def patSegs (pattern : String) : List MSeg :=
  (splitSlash pattern).map (fun s => if s == "**" then MSeg.globstar else MSeg.seg s.data)

/-- `minimatch(path, pattern, { dot: true, nocase: false, matchBase: true })`
over the embedded fragment.  With `matchBase`, a single-segment pattern is
matched against the last non-empty segment of the path. -/
def minimatchB (path pattern : String) : Bool :=
  let ps := patSegs pattern
  let fs0 := splitSlash path
  let fs := if ps.length == 1 then [((fs0.reverse).find? (fun g => g != "")).getD ""] else fs0
  mmStep (2 * (ps.length + fs.length) + 2) false ps fs

/-! ### CODEOWNERS parsing and resolution -/

/-- One parsed ownership rule (`parseCodeowners` keeps the raw pattern and
the normalized owner logins). -/
structure CodeownersRule where
  pattern : String
  owners : List String
deriving DecidableEq

/-- Truncate a character list at the leftmost occurrence of whitespace
followed (after more whitespace) by `#`; embeds `line.split(/\s+#/)[0]`. -/
def stripInline : List Char → List Char
  | [] => []
  | c :: cs =>
    if c.isWhitespace && ((cs.dropWhile Char.isWhitespace).headD 'x' == '#')
      then []
    else c :: stripInline cs

/-- Whitespace tokenisation: `split(/\s+/).filter(Boolean)`. -/
def splitWsTokens (s : String) : List String :=
  ((s.data.splitOnP Char.isWhitespace).map String.mk).filter (fun t => t != "")

/-- `parseCodeowners` from src/index.js lines 126-154: skip blank and `#`
lines, strip inline comments, first token is the pattern, remaining tokens
are owners with a leading `@` removed; drop owners that are empty or
bot-like, and drop the whole rule if no owner survives. -/
def parseCodeowners (text : Option String) : List CodeownersRule :=
  match text with
  | none => []
  | some t =>
    ((splitOnChar '\n' t.data).map String.mk).foldl (fun rules raw =>
      let line := jsTrim raw
      if line == "" || jsStartsWith line "#" then rules
      else
        let noInline := jsTrim (String.mk (stripInline line.data))
        if noInline == "" then rules
        else
          let parts := splitWsTokens noInline
          if parts.length < 2 then rules
          else
            let pattern := parts.headD ""
            let owners := ((parts.drop 1).map
                (fun o => jsTrim (if jsStartsWith o "@" then strDrop o 1 else o))).filter
              (fun o => o != "" && !isBotLogin o)
            if owners.isEmpty then rules
            else rules ++ [⟨pattern, owners⟩]) []

/-- `normalizeCodeownersPattern` from src/index.js lines 156-162: a leading
`/` is stripped (root anchor), any other pattern is wrapped as `**/pattern`. -/
def normalizeCodeownersPattern (pattern : String) : String :=
  if jsStartsWith pattern "/" then strDrop pattern 1 else "**/" ++ pattern

/-- Whether a rule's normalized pattern matches a path. -/
def ruleMatches (r : CodeownersRule) (filePath : String) : Bool :=
  minimatchB filePath (normalizeCodeownersPattern r.pattern)

/-- `ownersForFile` from src/index.js lines 164-176: replay the rules in
order, replacing the current owner set each time a rule matches
(last match wins); empty when nothing matches. -/
def ownersForFile (codeownersRules : List CodeownersRule) (filePath : String) : List String :=
  if codeownersRules.isEmpty then []
  else codeownersRules.foldl (fun matchedOwners r =>
    if ruleMatches r filePath then r.owners else matchedOwners) []

/-! ### Insertion-ordered maps (JavaScript `Map`) -/

/-- `Map.prototype.get`: the binding of the key, if any. -/
def mapGet : List (String × α) → String → Option α
  | [], _ => none
  | p :: ps, k => if p.1 == k then some p.2 else mapGet ps k

/-- `Map.prototype.set`: update the existing binding in place, otherwise
append a new binding (JavaScript `Map`s preserve insertion order). -/
def mapSet : List (String × α) → String → α → List (String × α)
  | [], k, v => [(k, v)]
  | p :: ps, k, v => if p.1 == k then (k, v) :: ps else p :: mapSet ps k v

/-! ### Review latency estimation -/

/-- One review event of a pull request (`r.user?.login`, `r.submitted_at`);
a missing login is embedded as the empty string, which `isBotLogin` filters
exactly as the JavaScript falsy check does.  Timestamps are milliseconds. -/
structure ReviewEvent where
  reviewer : String
  submittedAt : Option ℚ

/-- One sampled closed pull request: creation time, terminal timestamps, and
the fetched review list (`none` embeds a failed `listReviews` call, which the
code skips). -/
structure ClosedPR where
  createdAt : ℚ
  mergedAt : Option ℚ
  closedAt : Option ℚ
  reviews : Option (List ReviewEvent)

/-- The `firstByUser` map of src/index.js lines 216-225: per reviewer, the
earliest submission time, ignoring bot-like reviewers and events without a
submission timestamp. -/
def firstReviewByUser (revs : List ReviewEvent) : List (String × ℚ) :=
  revs.foldl (fun fb r =>
    if isBotLogin r.reviewer then fb
    else
      match r.submittedAt with
      | none => fb
      | some t =>
        match mapGet fb r.reviewer with
        | none => mapSet fb r.reviewer t
        | some ex => if t < ex then mapSet fb r.reviewer t else fb) []

/-- The `perReviewer` map of `computeReviewerLatencyHours` (src/index.js
lines 194-233): for each sampled pull request that reached a terminal state
and was created inside the window, convert each reviewer's first response to
elapsed hours and keep the non-negative samples. -/
def collectLatencySamples (pulls : List ClosedPR) (since : ℚ) : List (String × List ℚ) :=
  pulls.foldl (fun acc pr =>
    if pr.mergedAt = none ∧ pr.closedAt = none then acc
    else if pr.createdAt < since then acc
    else
      match pr.reviews with
      | none => acc
      | some revs =>
        (firstReviewByUser revs).foldl (fun acc lt =>
          let hours := (lt.2 - pr.createdAt) / (1000 * 60 * 60)
          if hours < 0 then acc
          else mapSet acc lt.1 ((mapGet acc lt.1).getD [] ++ [hours])) acc) []

/-- `computeReviewerLatencyHours` (src/index.js lines 180-241), with the
network layer already resolved into `pulls`: the median of each reviewer's
samples, omitting reviewers whose median is `null`. -/
def computeReviewerLatencyHours (pulls : List ClosedPR) (since : ℚ) : List (String × ℚ) :=
  (collectLatencySamples pulls since).foldl (fun out la =>
    match median la.2 with
    | none => out
    | some m => mapSet out la.1 m) []

/-- `latencyBonusHours` from src/index.js lines 243-254: step bonus from a
median review latency in hours (`null` contributes nothing). -/
def latencyBonusHours (medianHours : Option ℚ) : ℚ :=
  match medianHours with
  | none => 0
  | some m =>
    if m ≤ 4 then 6
    else if m ≤ 12 then 4
    else if m ≤ 24 then 2
    else if m ≤ 48 then 1
    else 0

/-- `Math.round` on the rationals the engine produces. -/
def jsRound (q : ℚ) : ℤ := ⌊q + 1 / 2⌋

/-! ### Ranking -/

/-- The per-file contributor signal (`fileAuthors` entries `{ path, authors }`). -/
structure FileAuthorsEntry where
  path : String
  authors : List String

/-- The three scoring weights. -/
structure Weights where
  commitHistory : ℚ
  codeowners : ℚ
  latency : ℚ

/-- One ranked candidate. -/
structure Candidate where
  login : String
  score : ℚ
  reasons : List String
deriving DecidableEq

/-- The mutable state of one `rankCandidates` pass: the `scores` map and the
`reasons` map (whose values are insertion-ordered deduplicated reason sets). -/
structure RankState where
  scores : List (String × ℚ)
  reasons : List (String × List String)

/-- The shared `add` closure of `rankCandidates` (src/index.js lines
269-276): discard awards to bots and to the PR author, otherwise accumulate
points and record the reason. -/
def addCand (prAuthor : String) (st : RankState) (login : String) (pts : ℚ)
    (reason : String) : RankState :=
  if isBotLogin login then st
  else if login == prAuthor then st
  else
    let scores := mapSet st.scores login ((mapGet st.scores login).getD 0 + pts)
    let reasons0 := if (mapGet st.reasons login).isSome then st.reasons
      else mapSet st.reasons login []
    let reasons :=
      if reason == "" then reasons0
      else
        let cur := (mapGet reasons0 login).getD []
        mapSet reasons0 login (if reason ∈ cur then cur else cur ++ [reason])
    ⟨scores, reasons⟩

/-- Commit-history signal (src/index.js lines 278-286): the i-th of the
first ten authors of each file earns `max(1, 3 - i) * weights.commitHistory`
points. -/
def chBlock (prAuthor : String) (wch : ℚ) (fileAuthors : List FileAuthorsEntry)
    (st : RankState) : RankState :=
  fileAuthors.foldl (fun st e =>
    ((e.authors.take 10).enum).foldl (fun st ia =>
      addCand prAuthor st ia.2 (((max 1 (3 - (ia.1 : ℤ))) : ℤ) * wch) "recent commits") st) st

/-- CODEOWNERS signal (src/index.js lines 289-302): each distinct
(owner, file) pair earns `weights.codeowners` points once, deduplicated via
the `seen` set keyed by the string `owner ++ "::" ++ file`. -/
def coBlock (prAuthor : String) (wco : ℚ) (codeownersRules : List CodeownersRule)
    (changedFiles : List String) (st : RankState) : RankState :=
  (changedFiles.foldl (fun acc f =>
    (ownersForFile codeownersRules f).foldl (fun acc o =>
      if o == "" then acc
      else
        let key := o ++ "::" ++ f
        if acc.2.contains key then acc
        else (addCand prAuthor acc.1 o wco "CODEOWNERS", acc.2 ++ [key])) acc)
    (st, ([] : List String))).1

/-- Latency signal (src/index.js lines 305-310): each profiled reviewer with
a positive scaled bonus earns it, tagged with the rounded median. -/
def latBlock (prAuthor : String) (wlat : ℚ) (latencyMap : List (String × ℚ))
    (st : RankState) : RankState :=
  latencyMap.foldl (fun st lm =>
    let bonus := latencyBonusHours (some lm.2) * wlat
    if bonus > 0 then
      addCand prAuthor st lm.1 bonus
        ("fast reviewer (~" ++ toString (jsRound lm.2) ++ "h median)")
    else st) st

/-- Stable descending insertion by score: embeds the stable JavaScript
`sort((a, b) => b[1] - a[1])` on the score entries. -/
def insertEntry (x : String × ℚ) : List (String × ℚ) → List (String × ℚ)
  | [] => [x]
  | y :: ys => if x.2 ≥ y.2 then x :: y :: ys else y :: insertEntry x ys

/-- Stable sort of the score entries, descending by score, insertion order
breaking ties. -/
def sortEntries (l : List (String × ℚ)) : List (String × ℚ) := l.foldr insertEntry []

/-- The state after the three signal passes of `rankCandidates`
(src/index.js lines 266-310): the commit-history pass always runs; the
CODEOWNERS pass runs only with positive weight and a non-empty rule list;
the latency pass runs only with positive weight and a non-empty profile. -/
def rankStateOf (fileAuthors : List FileAuthorsEntry) (prAuthor : String)
    (codeownersRules : List CodeownersRule) (changedFiles : List String)
    (latencyMap : List (String × ℚ)) (weights : Weights) : RankState :=
  let st0 : RankState := ⟨[], []⟩
  let st1 := chBlock prAuthor weights.commitHistory fileAuthors st0
  let st2 := if weights.codeowners > 0 ∧ ¬ codeownersRules.isEmpty then
      coBlock prAuthor weights.codeowners codeownersRules changedFiles st1
    else st1
  if weights.latency > 0 ∧ ¬ latencyMap.isEmpty then
    latBlock prAuthor weights.latency latencyMap st2
  else st2

/-- `rankCandidates` from src/index.js lines 258-319: run the three signal
passes, then sort the score entries (stable, descending) and attach the
reason lists. -/
def rankCandidates (fileAuthors : List FileAuthorsEntry) (prAuthor : String)
    (codeownersRules : List CodeownersRule) (changedFiles : List String)
    (latencyMap : List (String × ℚ)) (weights : Weights) : List Candidate :=
  let st3 := rankStateOf fileAuthors prAuthor codeownersRules changedFiles latencyMap weights
  (sortEntries st3.scores).map (fun e => ⟨e.1, e.2, (mapGet st3.reasons e.1).getD []⟩)

/-! ### Confidence -/

/-- Duplicate-preserving key set of `new Map(changedFiles.map(f => [f, false]))`:
the distinct files in first-occurrence order. -/
def uniqKeep (l : List String) : List String :=
  l.foldl (fun acc f => if acc.contains f then acc else acc ++ [f]) []

/-- The threshold buckets at the end of `computeConfidence` (src/index.js
lines 353-358), as a function of top score, second score and coverage. -/
def confidenceBuckets (top second coverageFrac : ℚ) : String :=
  let separation := if top > 0 then (top - second) / top else 0
  if 12 ≤ top ∧ (1 / 2 : ℚ) ≤ coverageFrac ∧ (1 / 4 : ℚ) ≤ separation then "High"
  else if 6 ≤ top ∧ (1 / 4 : ℚ) ≤ coverageFrac then "Medium"
  else "Low"

/-- The evidence-coverage fraction computed by `computeConfidence`
(src/index.js lines 330-351): the approximate commit-history coverage and
the exact CODEOWNERS coverage over the distinct changed files, divided by
the changed-file count. -/
def coverageOf (changedFiles : List String) (codeownersRules : List CodeownersRule)
    (fileAuthors : List FileAuthorsEntry) : ℚ :=
  let covered0 : Nat := 0
  let covered1 := if fileAuthors.length ≠ 0 then
      max covered0 (min changedFiles.length (max 1 fileAuthors.length))
    else covered0
  let codeownersCovered := if ¬ codeownersRules.isEmpty then
      ((uniqKeep changedFiles).filter (fun f => ¬ (ownersForFile codeownersRules f).isEmpty)).length
    else 0
  let covered2 := max covered1 codeownersCovered
  if changedFiles.length ≠ 0 then (covered2 : ℚ) / (changedFiles.length : ℚ) else 0

/-- `computeConfidence` from src/index.js lines 323-359: top and second
scores, the coverage fraction, then the threshold buckets. -/
def computeConfidence (ranked : List Candidate) (changedFiles : List String)
    (codeownersRules : List CodeownersRule) (fileAuthors : List FileAuthorsEntry) : String :=
  let top := ((ranked[0]?).map (fun c => c.score)).getD 0
  let second := ((ranked[1]?).map (fun c => c.score)).getD 0
  confidenceBuckets top second (coverageOf changedFiles codeownersRules fileAuthors)

/-! ### Comment rendering -/

/-- The idempotency marker of the posted comment. -/
def MARKER : String := "<!-- reviewer-suggester:v0 -->"

/-- Render a score the way the template literal does; every score the claims
exercise is an integer, rendered exactly as JavaScript would. -/
def ratToJsStr (q : ℚ) : String :=
  if q.den = 1 then toString q.num else toString q.num ++ "/" ++ toString q.den

/-- `formatComment` from src/index.js lines 363-388. -/
def formatComment (suggestions : List Candidate) (lookbackDays maxFiles fileCount : Nat)
    (confidence : String) : String :=
  let header := "### Reviewer suggestions\n" ++ MARKER ++ "\n\n"
  let meta := "Based on:\n- commit history in the last **" ++ toString lookbackDays
    ++ " days**\n- changed files: **" ++ toString (min fileCount maxFiles)
    ++ "**\n- confidence: **" ++ confidence ++ "**\n\n"
  if suggestions.isEmpty then
    header ++ meta ++
      "No strong candidates found (not enough history, no CODEOWNERS match, or only bots/author matched).\n"
  else
    let list := String.intercalate "\n" (suggestions.map (fun s =>
      let why := if ¬ s.reasons.isEmpty then " — " ++ String.intercalate ", " s.reasons else ""
      "- @" ++ s.login ++ " (score: " ++ ratToJsStr s.score ++ ")" ++ why))
    header ++ meta ++ list ++ "\n\n_Notes: excludes PR author and bots; heuristic-based._\n"

/-! ### Predicates used by the verification -/

/-- Duplicate-free key list of an association map. -/
def keysNodup {α : Type} (m : List (String × α)) : Prop := (m.map Prod.fst).Nodup

/-- Every key of the scores map passes the author/bot filter. -/
def goodKeys (prAuthor : String) (st : RankState) : Prop :=
  ∀ p ∈ st.scores, isBotLogin p.1 = false ∧ p.1 ≠ prAuthor

/-- `login` receives no commit-history award: it is not among the first ten
authors of any file. -/
def noChSignal (fileAuthors : List FileAuthorsEntry) (login : String) : Prop :=
  ∀ e ∈ fileAuthors, login ∉ e.authors.take 10

/-- `login` receives no ownership award: it owns none of the changed files. -/
def noCoSignal (codeownersRules : List CodeownersRule) (changedFiles : List String)
    (login : String) : Prop :=
  ∀ f ∈ changedFiles, login ∉ ownersForFile codeownersRules f

/-- `login` receives no latency award: every profile entry for it carries a
zero bonus. -/
def noLatSignal (latencyMap : List (String × ℚ)) (login : String) : Prop :=
  ∀ p ∈ latencyMap, p.1 = login → latencyBonusHours (some p.2) = 0

/-- `login` is present in the scores map and carries the "recent commits"
reason. -/
def hasRecentCommitsMark (login : String) (st : RankState) : Prop :=
  (mapGet st.scores login).isSome ∧
    ∃ rs, mapGet st.reasons login = some rs ∧ "recent commits" ∈ rs

/-- Restriction of an association map to the keys selected by `S`. -/
def filterKeys {α : Type} (S : String → Bool) (m : List (String × α)) : List (String × α) :=
  m.filter (fun p => S p.1)

/-- Presence of keys is monotone from `m1` to `m2`. -/
def presLe {α : Type} (m1 m2 : List (String × α)) : Prop :=
  ∀ k, mapGet m1 k ≠ none → mapGet m2 k ≠ none

/-- Scores in `m1` are pointwise bounded by those in `m2` (absent keys count
as zero). -/
def scoreLe (m1 m2 : List (String × ℚ)) : Prop :=
  ∀ k, (mapGet m1 k).getD 0 ≤ (mapGet m2 k).getD 0

/-- The ranking-state relation used for weight monotonicity. -/
def StRel (st1 st2 : RankState) : Prop :=
  presLe st1.scores st2.scores ∧ scoreLe st1.scores st2.scores

/-- Two ranking states agree on the candidates selected by `S` (scores and
reasons alike). -/
def EqOnS (S : String → Bool) (st1 st2 : RankState) : Prop :=
  filterKeys S st1.scores = filterKeys S st2.scores ∧
    filterKeys S st1.reasons = filterKeys S st2.reasons

/-! ### Supporting lemmas: maps -/

theorem mapGet_mapSet {α : Type} (m : List (String × α)) (k : String) (v : α) (x : String) :
    mapGet (mapSet m k v) x = if k = x then some v else mapGet m x := by
  induction m with
  | nil => by_cases h : k = x <;> simp [mapSet, mapGet, h]
  | cons p ps ih =>
    by_cases h1 : p.1 = k
    · by_cases h2 : k = x <;> simp [mapSet, mapGet, h1, h2]
    · by_cases h2 : k = x
      · subst h2; simp [mapSet, mapGet, h1, ih]
      · by_cases h3 : p.1 = x
        · simp [mapSet, mapGet, h1, h2, h3, Ne.symm h2]
        · simp [mapSet, mapGet, h1, h2, h3, ih]

theorem mapSet_mem {α : Type} {m : List (String × α)} {k : String} {v : α} {q : String × α}
    (h : q ∈ mapSet m k v) : q ∈ m ∨ q = (k, v) := by
  induction m with
  | nil => simpa [mapSet] using h
  | cons p ps ih =>
    by_cases h1 : p.1 = k
    · simp only [mapSet, h1, beq_self_eq_true, if_true] at h
      rcases List.mem_cons.1 h with h | h
      · exact Or.inr h
      · exact Or.inl (List.mem_cons_of_mem _ h)
    · simp only [mapSet, beq_iff_eq, h1, if_false] at h
      rcases List.mem_cons.1 h with h | h
      · exact Or.inl (List.mem_cons.2 (Or.inl h))
      · rcases ih h with h | h
        · exact Or.inl (List.mem_cons_of_mem _ h)
        · exact Or.inr h

theorem mapGet_mem {α : Type} {m : List (String × α)} {x : String} {v : α}
    (h : mapGet m x = some v) : (x, v) ∈ m := by
  induction m with
  | nil => simp [mapGet] at h
  | cons p ps ih =>
    by_cases h1 : p.1 = x
    · simp only [mapGet, h1, beq_self_eq_true, if_true, Option.some.injEq] at h
      have hpx : (x, v) = p := by rw [← h1, ← h]
      exact List.mem_cons.2 (Or.inl hpx)
    · simp only [mapGet, beq_iff_eq, h1, if_false] at h
      exact List.mem_cons_of_mem _ (ih h)

theorem mapGet_eq_none_iff {α : Type} {m : List (String × α)} {x : String} :
    mapGet m x = none ↔ ∀ p ∈ m, p.1 ≠ x := by
  induction m with
  | nil => simp [mapGet]
  | cons p ps ih =>
    by_cases h1 : p.1 = x <;> simp [mapGet, h1, ih]

theorem keys_mapSet_sub {α : Type} {m : List (String × α)} {k x : String} {v : α}
    (h : x ∈ (mapSet m k v).map Prod.fst) : x ∈ m.map Prod.fst ∨ x = k := by
  rcases List.mem_map.1 h with ⟨q, hq, hqx⟩
  rcases mapSet_mem hq with h | h
  · exact Or.inl (hqx ▸ List.mem_map_of_mem _ h)
  · subst h; exact Or.inr hqx.symm

theorem keysNodup_mapSet {α : Type} {m : List (String × α)} {k : String} {v : α}
    (h : keysNodup m) : keysNodup (mapSet m k v) := by
  induction m with
  | nil => simp [mapSet, keysNodup]
  | cons p ps ih =>
    simp only [keysNodup, List.map_cons, List.nodup_cons] at h
    by_cases h1 : p.1 = k
    · simpa [keysNodup, mapSet, h1] using h
    · have hn := ih h.2
      simp only [keysNodup, mapSet, beq_iff_eq, h1, if_false, List.map_cons, List.nodup_cons]
      refine ⟨fun hc => ?_, hn⟩
      rcases keys_mapSet_sub hc with hc | hc
      · exact h.1 hc
      · exact h1 hc

theorem mapGet_of_mem_nodup {α : Type} {m : List (String × α)} {k : String} {v : α}
    (hn : keysNodup m) (h : (k, v) ∈ m) : mapGet m k = some v := by
  induction m with
  | nil => simp at h
  | cons p ps ih =>
    simp only [keysNodup, List.map_cons, List.nodup_cons] at hn
    rcases List.mem_cons.1 h with h | h
    · subst h; simp [mapGet]
    · have hk : p.1 ≠ k := by
        intro he
        exact hn.1 (he ▸ List.mem_map_of_mem _ h)
      simp [mapGet, hk, ih hn.2 h]

/-! ### Supporting lemmas: folds -/

theorem foldl_preserves_mem {σ α : Type} {P : σ → Prop} {f : σ → α → σ} :
    ∀ {l : List α}, (∀ s a, a ∈ l → P s → P (f s a)) → ∀ {s : σ}, P s → P (l.foldl f s)
  | [], _, _, hs => hs
  | a :: l, h, s, hs =>
    foldl_preserves_mem (fun s b hb => h s b (List.mem_cons_of_mem _ hb))
      (h s a (List.mem_cons_self a l) hs)

theorem foldl_congr_id {σ α : Type} {f : σ → α → σ} :
    ∀ {l : List α}, (∀ s a, a ∈ l → f s a = s) → ∀ (s : σ), l.foldl f s = s
  | [], _, _ => rfl
  | a :: l, h, s => by
    rw [List.foldl_cons, h s a (List.mem_cons_self a l)]
    exact foldl_congr_id (fun s b hb => h s b (List.mem_cons_of_mem _ hb)) s

theorem foldl_establishes {σ α : Type} {P : σ → Prop} {f : σ → α → σ} {x : α} :
    ∀ {l : List α}, (∀ s a, a ∈ l → P s → P (f s a)) → (∀ s, P (f s x)) → x ∈ l →
      ∀ (s : σ), P (l.foldl f s)
  | [], _, _, hx, _ => absurd hx (List.not_mem_nil x)
  | a :: l, h, hest, hx, s => by
    rcases List.mem_cons.1 hx with he | hm
    · subst he
      exact foldl_preserves_mem (fun s b hb => h s b (List.mem_cons_of_mem _ hb)) (hest s)
    · exact foldl_establishes (fun s b hb => h s b (List.mem_cons_of_mem _ hb)) hest hm _

theorem foldl_rel {σ α : Type} {R : σ → σ → Prop} {f g : σ → α → σ} :
    ∀ {l : List α}, (∀ a, a ∈ l → ∀ s1 s2, R s1 s2 → R (f s1 a) (g s2 a)) →
      ∀ {s1 s2 : σ}, R s1 s2 → R (l.foldl f s1) (l.foldl g s2)
  | [], _, _, _, hr => hr
  | a :: l, h, s1, s2, hr =>
    foldl_rel (fun b hb => h b (List.mem_cons_of_mem _ hb))
      (h a (List.mem_cons_self a l) s1 s2 hr)

/-! ### Supporting lemmas: sorting and substrings -/

theorem insertEntry_perm (x : String × ℚ) (l : List (String × ℚ)) :
    List.Perm (insertEntry x l) (x :: l) := by
  induction l with
  | nil => exact List.Perm.refl _
  | cons y ys ih =>
    by_cases h : x.2 ≥ y.2
    · simp [insertEntry, h]
    · simp only [insertEntry, h, if_false]
      exact (ih.cons y).trans (List.Perm.swap x y ys)

theorem sortEntries_perm (l : List (String × ℚ)) : List.Perm (sortEntries l) l := by
  induction l with
  | nil => exact List.Perm.refl _
  | cons x xs ih => exact (insertEntry_perm x (sortEntries xs)).trans (ih.cons x)

theorem containsSubChars_append_of_right {n h2 : List Char} (h1 : List Char)
    (h : containsSubChars n h2 = true) : containsSubChars n (h1 ++ h2) = true := by
  induction h1 with
  | nil => simpa using h
  | cons c cs ih =>
    simp only [List.cons_append, containsSubChars, Bool.or_eq_true]
    exact Or.inr ih

/-! ### Supporting lemmas: last-match resolution -/

theorem foldl_lastMatch (path : String) (rules : List CodeownersRule) (init : List String) :
    rules.foldl (fun acc r => if ruleMatches r path then r.owners else acc) init =
      ((rules.reverse.find? (fun r => ruleMatches r path)).map (fun r => r.owners)).getD init := by
  induction rules generalizing init with
  | nil => simp
  | cons r rs ih =>
    rw [List.foldl_cons, ih, List.reverse_cons, List.find?_append]
    cases h : rs.reverse.find? (fun r => ruleMatches r path) with
    | some x => simp
    | none => by_cases hm : ruleMatches r path <;> simp [hm]

theorem ownersForFile_eq (rules : List CodeownersRule) (path : String) :
    ownersForFile rules path =
      ((rules.reverse.find? (fun r => ruleMatches r path)).map (fun r => r.owners)).getD [] := by
  cases rules with
  | nil => simp [ownersForFile]
  | cons r rs =>
    simp only [ownersForFile, List.isEmpty_cons, if_false, Bool.false_eq_true]
    exact foldl_lastMatch path (r :: rs) []

/-! ### Supporting lemmas: the award filter -/

theorem addCand_good (a : String) (st : RankState) (l : String) (pts : ℚ) (r : String)
    (h : goodKeys a st) : goodKeys a (addCand a st l pts r) := by
  unfold addCand
  by_cases hb : isBotLogin l = true
  · simpa [hb] using h
  · by_cases ha : l = a
    · simpa [hb, ha] using h
    · simp only [hb, Bool.false_eq_true, if_false, beq_iff_eq, ha]
      intro p hp
      rcases mapSet_mem hp with hp | hp
      · exact h p hp
      · subst hp
        exact ⟨by simpa using hb, ha⟩

theorem chBlock_good (a : String) (w : ℚ) (fa : List FileAuthorsEntry) (st : RankState)
    (h : goodKeys a st) : goodKeys a (chBlock a w fa st) := by
  unfold chBlock
  refine @foldl_preserves_mem _ _ (goodKeys a) _ _ (fun s e _ hs => ?_) _ h
  exact @foldl_preserves_mem _ _ (goodKeys a) _ _
    (fun s2 ia _ hs2 => addCand_good _ _ _ _ _ hs2) _ hs

theorem coBlock_good (a : String) (w : ℚ) (rules : List CodeownersRule) (cf : List String)
    (st : RankState) (h : goodKeys a st) : goodKeys a (coBlock a w rules cf st) := by
  unfold coBlock
  refine @foldl_preserves_mem _ _ (fun acc : RankState × List String => goodKeys a acc.1) _ _
    (fun acc f _ hacc => ?_) _ h
  refine @foldl_preserves_mem _ _ (fun acc : RankState × List String => goodKeys a acc.1) _ _
    (fun acc2 o _ hacc2 => ?_) _ hacc
  by_cases h1 : o == ""
  · simpa [h1] using hacc2
  · by_cases h2 : (o ++ "::" ++ f) ∈ acc2.2
    · simpa [h1, h2] using hacc2
    · simpa [h1, h2] using addCand_good _ _ _ _ _ hacc2

theorem latBlock_good (a : String) (w : ℚ) (lm : List (String × ℚ)) (st : RankState)
    (h : goodKeys a st) : goodKeys a (latBlock a w lm st) := by
  unfold latBlock
  refine @foldl_preserves_mem _ _ (goodKeys a) _ _ (fun s p _ hs => ?_) _ h
  by_cases hb : latencyBonusHours (some p.2) * w > 0
  · simpa [hb] using addCand_good _ _ _ _ _ hs
  · simpa [hb] using hs

theorem addCand_filtered (a : String) (st : RankState) (l : String) (pts : ℚ) (r : String)
    (h : isBotLogin l = true ∨ l = a) : addCand a st l pts r = st := by
  unfold addCand
  rcases h with h | h
  · simp [h]
  · subst h
    by_cases hb : isBotLogin l = true <;> simp [hb]

theorem enum_snd_mem {α : Type} {l : List α} {p : ℕ × α} (h : p ∈ l.enum) : p.2 ∈ l := by
  have hm : p.2 ∈ l.enum.map Prod.snd := List.mem_map_of_mem _ h
  rwa [List.enum_map_snd] at hm

theorem rankStateOf_good (fa : List FileAuthorsEntry) (a : String) (rules : List CodeownersRule)
    (cf : List String) (lm : List (String × ℚ)) (w : Weights) :
    goodKeys a (rankStateOf fa a rules cf lm w) := by
  have h0 : goodKeys a (⟨[], []⟩ : RankState) := fun p hp => absurd hp (List.not_mem_nil p)
  have h1 := chBlock_good a w.commitHistory fa _ h0
  simp only [rankStateOf]
  split_ifs
  · exact latBlock_good _ _ _ _ (coBlock_good _ _ _ _ _ h1)
  · exact latBlock_good _ _ _ _ h1
  · exact coBlock_good _ _ _ _ _ h1
  · exact h1

theorem chBlock_filtered (a : String) (w : ℚ) (fa : List FileAuthorsEntry) (st : RankState)
    (h : ∀ e ∈ fa, ∀ l ∈ e.authors.take 10, isBotLogin l = true ∨ l = a) :
    chBlock a w fa st = st := by
  unfold chBlock
  refine foldl_congr_id (fun s e he => ?_) st
  refine foldl_congr_id (fun s2 ia hia => ?_) s
  exact addCand_filtered _ _ _ _ _ (h e he ia.2 (enum_snd_mem hia))

theorem coBlock_filtered (a : String) (w : ℚ) (rules : List CodeownersRule) (cf : List String)
    (st : RankState)
    (h : ∀ f ∈ cf, ∀ o ∈ ownersForFile rules f, isBotLogin o = true ∨ o = a) :
    coBlock a w rules cf st = st := by
  unfold coBlock
  refine @foldl_preserves_mem _ _ (fun acc : RankState × List String => acc.1 = st) _ _
    (fun acc f hf hacc => ?_) _ rfl
  refine @foldl_preserves_mem _ _ (fun acc : RankState × List String => acc.1 = st) _ _
    (fun acc2 o ho hacc2 => ?_) _ hacc
  by_cases h1 : o == ""
  · simpa [h1] using hacc2
  · by_cases h2 : (o ++ "::" ++ f) ∈ acc2.2
    · simpa [h1, h2] using hacc2
    · simp only [h1, Bool.false_eq_true, if_false, h2, if_neg, List.elem_eq_mem]
      rw [if_neg (by simpa using h2)]
      simpa [addCand_filtered _ _ _ _ _ (h f hf o ho)] using hacc2

theorem latBlock_filtered (a : String) (w : ℚ) (lm : List (String × ℚ)) (st : RankState)
    (h : ∀ p ∈ lm, isBotLogin p.1 = true ∨ p.1 = a) :
    latBlock a w lm st = st := by
  unfold latBlock
  refine foldl_congr_id (fun s p hp => ?_) st
  by_cases hb : latencyBonusHours (some p.2) * w > 0
  · rw [if_pos hb]
    exact addCand_filtered _ _ _ _ _ (h p hp)
  · rw [if_neg hb]

theorem addCand_pres_mark (login a : String) (st : RankState) (x : String) (pts : ℚ)
    (h : hasRecentCommitsMark login st) :
    hasRecentCommitsMark login (addCand a st x pts "recent commits") := by
  unfold addCand
  by_cases hb : isBotLogin x = true
  · simpa [hb] using h
  by_cases hax : x = a
  · simpa [hb, hax] using h
  rcases h with ⟨hsome, rs, hrs, hmem⟩
  have hne : ¬ ("recent commits" = "") := by decide
  by_cases hxl : x = login
  · subst hxl
    have h0 : (mapGet st.reasons x).isSome := by simp [hrs]
    refine ⟨?_, (if "recent commits" ∈ rs then rs else rs ++ ["recent commits"]), ?_, ?_⟩
    · simp only [hb, Bool.false_eq_true, if_false, beq_iff_eq, hax, mapGet_mapSet, if_pos rfl]
      rfl
    · simp only [hb, Bool.false_eq_true, if_false, beq_iff_eq, hax, h0, if_true, hne,
        hrs, Option.getD_some, mapGet_mapSet, if_pos rfl]
      simp [hrs]
    · by_cases hin : "recent commits" ∈ rs
      · simpa [hin] using hin
      · simp [hin]
  · have hlx : ¬ (x = login) := hxl
    refine ⟨?_, rs, ?_, hmem⟩
    · simp only [hb, Bool.false_eq_true, if_false, beq_iff_eq, hax, mapGet_mapSet, hlx,
        if_false]
      exact hsome
    · have hget0 : mapGet (if (mapGet st.reasons x).isSome then st.reasons
          else mapSet st.reasons x []) login = some rs := by
        split_ifs
        · exact hrs
        · rw [mapGet_mapSet, if_neg hlx]
          exact hrs
      simp only [hb, Bool.false_eq_true, if_false, beq_iff_eq, hax, hne, mapGet_mapSet,
        hlx, if_false]
      exact hget0

theorem addCand_make_mark (login a : String) (hb : isBotLogin login = false)
    (ha : login ≠ a) (st : RankState) (pts : ℚ) :
    hasRecentCommitsMark login (addCand a st login pts "recent commits") := by
  unfold addCand
  have hne : ¬ ("recent commits" = "") := by decide
  cases hpr : mapGet st.reasons login with
  | some cur0 =>
    have h0 : (mapGet st.reasons login).isSome := by simp [hpr]
    refine ⟨?_, (if "recent commits" ∈ cur0 then cur0 else cur0 ++ ["recent commits"]), ?_, ?_⟩
    · simp only [hb, Bool.false_eq_true, if_false, beq_iff_eq, ha, mapGet_mapSet, if_pos rfl]
      rfl
    · simp only [hb, Bool.false_eq_true, if_false, beq_iff_eq, ha, h0, if_true, hne,
        hpr, Option.getD_some, mapGet_mapSet, if_pos rfl]
      simp [hpr]
    · by_cases hin : "recent commits" ∈ cur0
      · simpa [hin] using hin
      · simp [hin]
  | none =>
    have h0 : (mapGet st.reasons login).isSome = false := by simp [hpr]
    refine ⟨?_, ["recent commits"], ?_, by simp⟩
    · simp only [hb, Bool.false_eq_true, if_false, beq_iff_eq, ha, mapGet_mapSet, if_pos rfl]
      rfl
    · simp only [hb, Bool.false_eq_true, if_false, beq_iff_eq, ha, h0, hne, mapGet_mapSet,
        if_pos rfl, Option.getD_some]
      simp [mapGet_mapSet, hpr]

theorem chBlock_mark (a : String) (w : ℚ) (fa : List FileAuthorsEntry) (login : String)
    (hb : isBotLogin login = false) (ha : login ≠ a)
    (hex : ∃ e ∈ fa, login ∈ e.authors.take 10) (st : RankState) :
    hasRecentCommitsMark login (chBlock a w fa st) := by
  unfold chBlock
  rcases hex with ⟨e, he, hl⟩
  have hl2 : ∃ ia : ℕ × String, ia ∈ (e.authors.take 10).enum ∧ ia.2 = login := by
    rw [← List.enum_map_snd (e.authors.take 10)] at hl
    rcases List.mem_map.1 hl with ⟨ia, hia, hia2⟩
    exact ⟨ia, hia, hia2⟩
  rcases hl2 with ⟨⟨i, l⟩, hia, hia2⟩
  simp only at hia2
  subst hia2
  refine @foldl_establishes _ _ (hasRecentCommitsMark l) _ e _
    (fun s e2 _ hs => ?_) (fun s => ?_) he st
  · exact @foldl_preserves_mem _ _ (hasRecentCommitsMark l) _ _
      (fun s2 ia2 _ hs2 => addCand_pres_mark _ _ _ _ _ hs2) _ hs
  · refine @foldl_establishes _ _ (hasRecentCommitsMark l) _ (i, l) _
      (fun s2 ia2 _ hs2 => addCand_pres_mark _ _ _ _ _ hs2) (fun s2 => ?_) hia s
    exact addCand_make_mark _ _ hb ha _ _

theorem addCand_zero (a : String) (st : RankState) (x r : String)
    (h : ∀ p ∈ st.scores, p.2 = (0 : ℚ)) :
    ∀ p ∈ (addCand a st x 0 r).scores, p.2 = (0 : ℚ) := by
  unfold addCand
  by_cases hb : isBotLogin x = true
  · simpa [hb] using h
  by_cases hax : x = a
  · simpa [hb, hax] using h
  simp only [hb, Bool.false_eq_true, if_false, beq_iff_eq, hax]
  intro p hp
  rcases mapSet_mem hp with hp | hp
  · exact h p hp
  · rw [hp]
    cases hm : mapGet st.scores x with
    | none => simp [hm]
    | some v =>
      have hv := h _ (mapGet_mem hm)
      simp only at hv
      simp [hm, hv]

theorem chBlock_zero (a : String) (fa : List FileAuthorsEntry) (st : RankState)
    (h : ∀ p ∈ st.scores, p.2 = (0 : ℚ)) :
    ∀ p ∈ (chBlock a 0 fa st).scores, p.2 = (0 : ℚ) := by
  unfold chBlock
  refine @foldl_preserves_mem _ _ (fun st : RankState => ∀ p ∈ st.scores, p.2 = (0 : ℚ)) _ _
    (fun s e _ hs => ?_) _ h
  refine @foldl_preserves_mem _ _ (fun st : RankState => ∀ p ∈ st.scores, p.2 = (0 : ℚ)) _ _
    (fun s2 ia _ hs2 => ?_) _ hs
  rw [show ((max 1 (3 - (ia.1 : ℤ)) : ℤ) : ℚ) * 0 = 0 from mul_zero _]
  exact addCand_zero _ _ _ _ hs2

/-! ### Supporting lemmas: weight monotonicity -/

theorem latencyBonus_nonneg (mh : Option ℚ) : 0 ≤ latencyBonusHours mh := by
  cases mh with
  | none => simp [latencyBonusHours]
  | some m =>
    simp only [latencyBonusHours]
    split_ifs <;> norm_num

theorem StRel_refl (st : RankState) : StRel st st :=
  ⟨fun _ h => h, fun _ => le_refl _⟩

theorem addCand_rel_mono (a l : String) (r1 r2 : String) {pts1 pts2 : ℚ} (h : pts1 ≤ pts2)
    {st1 st2 : RankState} (hr : StRel st1 st2) :
    StRel (addCand a st1 l pts1 r1) (addCand a st2 l pts2 r2) := by
  unfold addCand
  by_cases hb : isBotLogin l = true
  · simpa [hb] using hr
  by_cases hax : l = a
  · simpa [hb, hax] using hr
  simp only [hb, Bool.false_eq_true, if_false, beq_iff_eq, hax]
  constructor
  · intro k hk
    rw [mapGet_mapSet]
    rw [mapGet_mapSet] at hk
    by_cases hlk : l = k
    · simp [hlk]
    · simp only [hlk, if_false] at hk ⊢
      exact hr.1 k hk
  · intro k
    rw [mapGet_mapSet, mapGet_mapSet]
    by_cases hlk : l = k
    · subst hlk
      simp only [if_pos rfl, Option.getD_some]
      exact add_le_add (hr.2 l) h
    · simp only [hlk, if_false]
      exact hr.2 k

theorem addCand_rel_right (a l : String) (r : String) {pts : ℚ} (h : 0 ≤ pts)
    {st1 st2 : RankState} (hr : StRel st1 st2) : StRel st1 (addCand a st2 l pts r) := by
  unfold addCand
  by_cases hb : isBotLogin l = true
  · simpa [hb] using hr
  by_cases hax : l = a
  · simpa [hb, hax] using hr
  simp only [hb, Bool.false_eq_true, if_false, beq_iff_eq, hax]
  constructor
  · intro k hk
    rw [mapGet_mapSet]
    by_cases hlk : l = k
    · simp [hlk]
    · simp only [hlk, if_false]
      exact hr.1 k hk
  · intro k
    rw [mapGet_mapSet]
    by_cases hlk : l = k
    · subst hlk
      simp only [if_pos rfl, Option.getD_some]
      exact le_trans (hr.2 l) (le_add_of_nonneg_right h)
    · simp only [hlk, if_false]
      exact hr.2 k

theorem chBlock_rel (a : String) {w1 w2 : ℚ} (fa : List FileAuthorsEntry) (hw : w1 ≤ w2)
    {st1 st2 : RankState} (hr : StRel st1 st2) :
    StRel (chBlock a w1 fa st1) (chBlock a w2 fa st2) := by
  unfold chBlock
  refine foldl_rel (fun e _ s1 s2 hs => ?_) hr
  refine foldl_rel (fun ia _ s1 s2 hs2 => ?_) hs
  have hc : (0 : ℚ) ≤ ((max 1 (3 - (ia.1 : ℤ)) : ℤ) : ℚ) := by
    have h1 : (0 : ℤ) ≤ max 1 (3 - (ia.1 : ℤ)) := le_trans zero_le_one (le_max_left _ _)
    exact_mod_cast h1
  exact addCand_rel_mono a ia.2 _ _ (mul_le_mul_of_nonneg_left hw hc) hs2

theorem foldl_rel_pair {σ τ α : Type} {R : σ → σ → Prop} {f g : σ × τ → α → σ × τ}
    (h : ∀ a s1 s2, R s1.1 s2.1 → s1.2 = s2.2 →
      R (f s1 a).1 (g s2 a).1 ∧ (f s1 a).2 = (g s2 a).2) :
    ∀ (l : List α) (s1 s2 : σ × τ), R s1.1 s2.1 → s1.2 = s2.2 →
      R (l.foldl f s1).1 (l.foldl g s2).1 ∧ (l.foldl f s1).2 = (l.foldl g s2).2
  | [], _, _, h1, h2 => ⟨h1, h2⟩
  | a :: l, s1, s2, h1, h2 =>
    foldl_rel_pair h l (f s1 a) (g s2 a) (h a s1 s2 h1 h2).1 (h a s1 s2 h1 h2).2

theorem coBlock_rel (a : String) {w1 w2 : ℚ} (rules : List CodeownersRule) (cf : List String)
    (hw : w1 ≤ w2) {st1 st2 : RankState} (hr : StRel st1 st2) :
    StRel (coBlock a w1 rules cf st1) (coBlock a w2 rules cf st2) := by
  unfold coBlock
  refine (foldl_rel_pair (fun f s1 s2 h1 h2 => ?_) cf (st1, ([] : List String))
    (st2, ([] : List String)) hr rfl).1
  refine foldl_rel_pair (fun o b1 b2 hb1 hb2 => ?_) (ownersForFile rules f) s1 s2 h1 h2
  by_cases hq1 : o == ""
  · rw [if_pos hq1, if_pos hq1]
    exact ⟨hb1, hb2⟩
  · rw [if_neg hq1, if_neg hq1]
    rw [hb2]
    by_cases hq2 : b2.2.contains (o ++ "::" ++ f) = true
    · rw [if_pos hq2, if_pos hq2]
      exact ⟨hb1, hb2⟩
    · rw [if_neg hq2, if_neg hq2]
      exact ⟨addCand_rel_mono a o _ _ hw hb1, rfl⟩

theorem coBlock_rel_right (a : String) {w : ℚ} (rules : List CodeownersRule) (cf : List String)
    (hw : 0 ≤ w) {st1 st2 : RankState} (hr : StRel st1 st2) :
    StRel st1 (coBlock a w rules cf st2) := by
  unfold coBlock
  refine @foldl_preserves_mem _ _ (fun acc : RankState × List String => StRel st1 acc.1) _ _
    (fun acc f _ hacc => ?_) _ hr
  refine @foldl_preserves_mem _ _ (fun acc : RankState × List String => StRel st1 acc.1) _ _
    (fun acc2 o _ hacc2 => ?_) _ hacc
  by_cases h1 : o == ""
  · simpa [h1] using hacc2
  · by_cases h2 : (o ++ "::" ++ f) ∈ acc2.2
    · simpa [h1, h2] using hacc2
    · simpa [h1, h2] using addCand_rel_right a o _ hw hacc2

theorem latBlock_rel (a : String) {w1 w2 : ℚ} (lm : List (String × ℚ)) (h0 : 0 ≤ w1)
    (hw : w1 ≤ w2) {st1 st2 : RankState} (hr : StRel st1 st2) :
    StRel (latBlock a w1 lm st1) (latBlock a w2 lm st2) := by
  unfold latBlock
  refine foldl_rel (fun p _ s1 s2 hs => ?_) hr
  have hb := latencyBonus_nonneg (some p.2)
  have hpts : latencyBonusHours (some p.2) * w1 ≤ latencyBonusHours (some p.2) * w2 :=
    mul_le_mul_of_nonneg_left hw hb
  by_cases hg1 : latencyBonusHours (some p.2) * w1 > 0
  · rw [if_pos hg1, if_pos (lt_of_lt_of_le hg1 hpts)]
    exact addCand_rel_mono a p.1 _ _ hpts hs
  · rw [if_neg hg1]
    by_cases hg2 : latencyBonusHours (some p.2) * w2 > 0
    · rw [if_pos hg2]
      exact addCand_rel_right a p.1 _ (le_of_lt hg2) hs
    · rw [if_neg hg2]
      exact hs

theorem latBlock_rel_right (a : String) {w : ℚ} (lm : List (String × ℚ))
    {st1 st2 : RankState} (hr : StRel st1 st2) : StRel st1 (latBlock a w lm st2) := by
  unfold latBlock
  refine @foldl_preserves_mem _ _ (fun s : RankState => StRel st1 s) _ _
    (fun s p _ hs => ?_) _ hr
  by_cases hg : latencyBonusHours (some p.2) * w > 0
  · rw [if_pos hg]
    exact addCand_rel_right a p.1 _ (le_of_lt hg) hs
  · rw [if_neg hg]
    exact hs

theorem coStep_rel (a : String) (rules : List CodeownersRule) (cf : List String)
    {w1 w2 : ℚ} (h0 : 0 ≤ w1) (hw : w1 ≤ w2) {st1 st2 : RankState} (hr : StRel st1 st2) :
    StRel (if w1 > 0 ∧ ¬rules.isEmpty then coBlock a w1 rules cf st1 else st1)
      (if w2 > 0 ∧ ¬rules.isEmpty then coBlock a w2 rules cf st2 else st2) := by
  split_ifs with hg1 hg2 hg2
  · exact coBlock_rel a rules cf hw hr
  · exact absurd ⟨lt_of_lt_of_le hg1.1 hw, hg1.2⟩ hg2
  · exact coBlock_rel_right a rules cf (le_trans h0 hw) hr
  · exact hr

theorem latStep_rel (a : String) (lm : List (String × ℚ)) {w1 w2 : ℚ} (h0 : 0 ≤ w1)
    (hw : w1 ≤ w2) {st1 st2 : RankState} (hr : StRel st1 st2) :
    StRel (if w1 > 0 ∧ ¬lm.isEmpty then latBlock a w1 lm st1 else st1)
      (if w2 > 0 ∧ ¬lm.isEmpty then latBlock a w2 lm st2 else st2) := by
  split_ifs with hg1 hg2 hg2
  · exact latBlock_rel a lm h0 hw hr
  · exact absurd ⟨lt_of_lt_of_le hg1.1 hw, hg1.2⟩ hg2
  · exact latBlock_rel_right a lm hr
  · exact hr

theorem rankStateOf_rel (fa : List FileAuthorsEntry) (a : String)
    (rules : List CodeownersRule) (cf : List String) (lm : List (String × ℚ))
    {w w' : Weights} (h0co : 0 ≤ w.codeowners) (h0lat : 0 ≤ w.latency)
    (hch : w.commitHistory ≤ w'.commitHistory) (hco : w.codeowners ≤ w'.codeowners)
    (hlat : w.latency ≤ w'.latency) :
    StRel (rankStateOf fa a rules cf lm w) (rankStateOf fa a rules cf lm w') := by
  simp only [rankStateOf]
  exact latStep_rel a lm h0lat hlat
    (coStep_rel a rules cf h0co hco (chBlock_rel a fa hch (StRel_refl ⟨[], []⟩)))

theorem addCand_keysNodup (a : String) (st : RankState) (l : String) (pts : ℚ) (r : String)
    (h : keysNodup st.scores) : keysNodup (addCand a st l pts r).scores := by
  unfold addCand
  by_cases hb : isBotLogin l = true
  · simpa [hb] using h
  by_cases hax : l = a
  · simpa [hb, hax] using h
  simp only [hb, Bool.false_eq_true, if_false, beq_iff_eq, hax]
  exact keysNodup_mapSet h

theorem rankStateOf_keysNodup (fa : List FileAuthorsEntry) (a : String)
    (rules : List CodeownersRule) (cf : List String) (lm : List (String × ℚ)) (w : Weights) :
    keysNodup (rankStateOf fa a rules cf lm w).scores := by
  have h0 : keysNodup (⟨[], []⟩ : RankState).scores := List.nodup_nil
  have h1 : keysNodup (chBlock a w.commitHistory fa ⟨[], []⟩).scores := by
    unfold chBlock
    refine @foldl_preserves_mem _ _ (fun st : RankState => keysNodup st.scores) _ _
      (fun s e _ hs => ?_) _ h0
    exact @foldl_preserves_mem _ _ (fun st : RankState => keysNodup st.scores) _ _
      (fun s2 ia _ hs2 => addCand_keysNodup _ _ _ _ _ hs2) _ hs
  have hco : ∀ (wx : ℚ) (st : RankState), keysNodup st.scores →
      keysNodup (coBlock a wx rules cf st).scores := by
    intro wx st hst
    unfold coBlock
    refine @foldl_preserves_mem _ _
      (fun acc : RankState × List String => keysNodup acc.1.scores) _ _
      (fun acc f _ hacc => ?_) _ hst
    refine @foldl_preserves_mem _ _
      (fun acc : RankState × List String => keysNodup acc.1.scores) _ _
      (fun acc2 o _ hacc2 => ?_) _ hacc
    by_cases h1 : o == ""
    · simpa [h1] using hacc2
    · by_cases h2 : (o ++ "::" ++ f) ∈ acc2.2
      · simpa [h1, h2] using hacc2
      · simpa [h1, h2] using addCand_keysNodup _ _ _ _ _ hacc2
  have hlat : ∀ (wx : ℚ) (st : RankState), keysNodup st.scores →
      keysNodup (latBlock a wx lm st).scores := by
    intro wx st hst
    unfold latBlock
    refine @foldl_preserves_mem _ _ (fun st : RankState => keysNodup st.scores) _ _
      (fun s p _ hs => ?_) _ hst
    by_cases hg : latencyBonusHours (some p.2) * wx > 0
    · rw [if_pos hg]
      exact addCand_keysNodup _ _ _ _ _ hs
    · rw [if_neg hg]
      exact hs
  simp only [rankStateOf]
  split_ifs
  · exact hlat _ _ (hco _ _ h1)
  · exact hlat _ _ h1
  · exact hco _ _ h1
  · exact h1

/-! ### Supporting lemmas: agreement on a key set -/

theorem mapGet_filterKeys {α : Type} {S : String → Bool} {k : String} (hS : S k = true)
    (m : List (String × α)) : mapGet (filterKeys S m) k = mapGet m k := by
  induction m with
  | nil => rfl
  | cons p ps ih =>
    by_cases hpk : p.1 = k
    · have hSp : S p.1 = true := by rw [hpk]; exact hS
      simp [filterKeys, List.filter_cons, mapGet, hSp, hpk, hS]
    · by_cases hSp : S p.1 = true
      · simpa [filterKeys, mapGet, hSp, hpk] using ih
      · have hSp2 : S p.1 = false := by simpa using hSp
        simpa [filterKeys, mapGet, hSp2, hpk] using ih

theorem filterKeys_mapSet_mem {α : Type} {S : String → Bool} {k : String} (hS : S k = true)
    (m : List (String × α)) (v : α) :
    filterKeys S (mapSet m k v) = mapSet (filterKeys S m) k v := by
  induction m with
  | nil => simp [filterKeys, mapSet, hS]
  | cons p ps ih =>
    by_cases hpk : p.1 = k
    · have hSp : S p.1 = true := by rw [hpk]; exact hS
      simp [filterKeys, mapSet, hpk, hSp, hS]
    · by_cases hSp : S p.1 = true
      · simp only [mapSet, beq_iff_eq, hpk, if_false, filterKeys, List.filter_cons, hSp,
          if_true]
        exact congrArg (List.cons p) ih
      · have hSp2 : S p.1 = false := by simpa using hSp
        simp only [mapSet, beq_iff_eq, hpk, if_false, filterKeys, List.filter_cons, hSp2]
        exact ih

theorem filterKeys_mapSet_not_mem {α : Type} {S : String → Bool} {k : String}
    (hS : S k = false) (m : List (String × α)) (v : α) :
    filterKeys S (mapSet m k v) = filterKeys S m := by
  induction m with
  | nil => simp [filterKeys, mapSet, hS]
  | cons p ps ih =>
    by_cases hpk : p.1 = k
    · have hSp : S p.1 = false := by rw [hpk]; exact hS
      simp [filterKeys, mapSet, hpk, hSp, hS]
    · by_cases hSp : S p.1 = true
      · simp only [mapSet, beq_iff_eq, hpk, if_false, filterKeys, List.filter_cons, hSp,
          if_true]
        exact congrArg (List.cons p) ih
      · have hSp2 : S p.1 = false := by simpa using hSp
        simp only [mapSet, beq_iff_eq, hpk, if_false, filterKeys, List.filter_cons, hSp2]
        exact ih

theorem EqOnS_refl (S : String → Bool) (st : RankState) : EqOnS S st st := ⟨rfl, rfl⟩

theorem addCand_filterKeys_self {S : String → Bool} (a : String) (st : RankState)
    {l : String} (hS : S l = false) (pts : ℚ) (r : String) :
    filterKeys S (addCand a st l pts r).scores = filterKeys S st.scores ∧
    filterKeys S (addCand a st l pts r).reasons = filterKeys S st.reasons := by
  unfold addCand
  by_cases hb : isBotLogin l = true
  · simp [hb]
  by_cases hax : l = a
  · simp [hb, hax]
  simp only [hb, Bool.false_eq_true, if_false, beq_iff_eq, hax]
  refine ⟨filterKeys_mapSet_not_mem hS _ _, ?_⟩
  by_cases hpr : (mapGet st.reasons l).isSome
  · rw [if_pos hpr]
    by_cases hrr : r = ""
    · rw [if_pos hrr]
    · rw [if_neg hrr]
      exact filterKeys_mapSet_not_mem hS _ _
  · rw [if_neg hpr]
    by_cases hrr : r = ""
    · rw [if_pos hrr]
      exact filterKeys_mapSet_not_mem hS _ _
    · rw [if_neg hrr]
      rw [filterKeys_mapSet_not_mem hS, filterKeys_mapSet_not_mem hS]

theorem addCand_eqOn {S : String → Bool} (a l : String) (pts : ℚ) (r : String)
    {st1 st2 : RankState} (h : EqOnS S st1 st2) :
    EqOnS S (addCand a st1 l pts r) (addCand a st2 l pts r) := by
  by_cases hS : S l = true
  case neg =>
    have hS2 : S l = false := by simpa using hS
    have e1 := addCand_filterKeys_self a st1 hS2 pts r
    have e2 := addCand_filterKeys_self a st2 hS2 pts r
    exact ⟨e1.1.trans (h.1.trans e2.1.symm), e1.2.trans (h.2.trans e2.2.symm)⟩
  case pos =>
    unfold addCand
    by_cases hb : isBotLogin l = true
    · simpa [hb] using h
    by_cases hax : l = a
    · simpa [hb, hax] using h
    simp only [hb, Bool.false_eq_true, if_false, beq_iff_eq, hax]
    have hsc : mapGet st1.scores l = mapGet st2.scores l := by
      rw [← mapGet_filterKeys hS st1.scores, ← mapGet_filterKeys hS st2.scores, h.1]
    have hre : mapGet st1.reasons l = mapGet st2.reasons l := by
      rw [← mapGet_filterKeys hS st1.reasons, ← mapGet_filterKeys hS st2.reasons, h.2]
    constructor
    · rw [hsc, filterKeys_mapSet_mem hS, filterKeys_mapSet_mem hS, h.1]
    · rw [hre]
      by_cases hpr : (mapGet st2.reasons l).isSome
      · rw [if_pos hpr, if_pos hpr]
        by_cases hrr : r = ""
        · rw [if_pos hrr, if_pos hrr]
          exact h.2
        · rw [if_neg hrr, if_neg hrr]
          rw [hre, filterKeys_mapSet_mem hS, filterKeys_mapSet_mem hS, h.2]
      · rw [if_neg hpr, if_neg hpr]
        by_cases hrr : r = ""
        · rw [if_pos hrr, if_pos hrr]
          rw [filterKeys_mapSet_mem hS, filterKeys_mapSet_mem hS, h.2]
        · rw [if_neg hrr, if_neg hrr]
          rw [mapGet_mapSet, mapGet_mapSet]
          rw [filterKeys_mapSet_mem hS, filterKeys_mapSet_mem hS,
            filterKeys_mapSet_mem hS, filterKeys_mapSet_mem hS, h.2]
          simp

theorem chBlock_eqOn {S : String → Bool} (a : String) (w : ℚ) (fa : List FileAuthorsEntry)
    {st1 st2 : RankState} (h : EqOnS S st1 st2) :
    EqOnS S (chBlock a w fa st1) (chBlock a w fa st2) := by
  unfold chBlock
  refine foldl_rel (fun e _ s1 s2 hs => ?_) h
  refine foldl_rel (fun ia _ s3 s4 hs2 => ?_) hs
  exact addCand_eqOn a ia.2 _ _ hs2

theorem coBlock_eqOn {S : String → Bool} (a : String) (w : ℚ) (rules : List CodeownersRule)
    (cf : List String) {st1 st2 : RankState} (h : EqOnS S st1 st2) :
    EqOnS S (coBlock a w rules cf st1) (coBlock a w rules cf st2) := by
  unfold coBlock
  refine (foldl_rel_pair (fun f s1 s2 h1 h2 => ?_) cf (st1, ([] : List String))
    (st2, ([] : List String)) h rfl).1
  refine foldl_rel_pair (fun o b1 b2 hb1 hb2 => ?_) (ownersForFile rules f) s1 s2 h1 h2
  by_cases hq1 : o == ""
  · rw [if_pos hq1, if_pos hq1]
    exact ⟨hb1, hb2⟩
  · rw [if_neg hq1, if_neg hq1, hb2]
    by_cases hq2 : b2.2.contains (o ++ "::" ++ f) = true
    · rw [if_pos hq2, if_pos hq2]
      exact ⟨hb1, hb2⟩
    · rw [if_neg hq2, if_neg hq2]
      exact ⟨addCand_eqOn a o _ _ hb1, rfl⟩

theorem latBlock_eqOn {S : String → Bool} (a : String) (w : ℚ) (lm : List (String × ℚ))
    {st1 st2 : RankState} (h : EqOnS S st1 st2) :
    EqOnS S (latBlock a w lm st1) (latBlock a w lm st2) := by
  unfold latBlock
  refine foldl_rel (fun p _ s1 s2 hs => ?_) h
  by_cases hg : latencyBonusHours (some p.2) * w > 0
  · rw [if_pos hg, if_pos hg]
    exact addCand_eqOn a p.1 _ _ hs
  · rw [if_neg hg, if_neg hg]
    exact hs

theorem chBlock_filterKeys_self {S : String → Bool} (a : String) (w : ℚ)
    (fa : List FileAuthorsEntry) (st : RankState)
    (hS : ∀ e ∈ fa, ∀ l ∈ e.authors.take 10, S l = false) :
    filterKeys S (chBlock a w fa st).scores = filterKeys S st.scores ∧
    filterKeys S (chBlock a w fa st).reasons = filterKeys S st.reasons := by
  unfold chBlock
  refine @foldl_preserves_mem _ _ (fun st' : RankState =>
    filterKeys S st'.scores = filterKeys S st.scores ∧
      filterKeys S st'.reasons = filterKeys S st.reasons) _ _
    (fun s e he hs => ?_) _ ⟨rfl, rfl⟩
  refine @foldl_preserves_mem _ _ (fun st' : RankState =>
    filterKeys S st'.scores = filterKeys S st.scores ∧
      filterKeys S st'.reasons = filterKeys S st.reasons) _ _
    (fun s2 ia hia hs2 => ?_) _ hs
  have hSl : S ia.2 = false := hS e he ia.2 (enum_snd_mem hia)
  have e1 := addCand_filterKeys_self a s2 hSl (((max 1 (3 - (ia.1 : ℤ))) : ℤ) * w)
    "recent commits"
  exact ⟨e1.1.trans hs2.1, e1.2.trans hs2.2⟩

theorem coBlock_filterKeys_self {S : String → Bool} (a : String) (w : ℚ)
    (rules : List CodeownersRule) (cf : List String) (st : RankState)
    (hS : ∀ f ∈ cf, ∀ o ∈ ownersForFile rules f, S o = false) :
    filterKeys S (coBlock a w rules cf st).scores = filterKeys S st.scores ∧
    filterKeys S (coBlock a w rules cf st).reasons = filterKeys S st.reasons := by
  unfold coBlock
  refine @foldl_preserves_mem _ _ (fun acc : RankState × List String =>
    filterKeys S acc.1.scores = filterKeys S st.scores ∧
      filterKeys S acc.1.reasons = filterKeys S st.reasons) _ _
    (fun acc f hf hacc => ?_) _ ⟨rfl, rfl⟩
  refine @foldl_preserves_mem _ _ (fun acc : RankState × List String =>
    filterKeys S acc.1.scores = filterKeys S st.scores ∧
      filterKeys S acc.1.reasons = filterKeys S st.reasons) _ _
    (fun acc2 o ho hacc2 => ?_) _ hacc
  by_cases h1 : o == ""
  · simpa [h1] using hacc2
  · by_cases h2 : acc2.2.contains (o ++ "::" ++ f) = true
    · simp only [h1, Bool.false_eq_true, if_false]
      rw [if_pos h2]
      exact hacc2
    · simp only [h1, Bool.false_eq_true, if_false]
      rw [if_neg h2]
      have e1 := addCand_filterKeys_self a acc2.1 (hS f hf o ho) w "CODEOWNERS"
      exact ⟨e1.1.trans hacc2.1, e1.2.trans hacc2.2⟩

theorem latBlock_filterKeys_self {S : String → Bool} (a : String) (w : ℚ)
    (lm : List (String × ℚ)) (st : RankState)
    (hS : ∀ p ∈ lm, S p.1 = true → latencyBonusHours (some p.2) = 0) :
    filterKeys S (latBlock a w lm st).scores = filterKeys S st.scores ∧
    filterKeys S (latBlock a w lm st).reasons = filterKeys S st.reasons := by
  unfold latBlock
  refine @foldl_preserves_mem _ _ (fun st' : RankState =>
    filterKeys S st'.scores = filterKeys S st.scores ∧
      filterKeys S st'.reasons = filterKeys S st.reasons) _ _
    (fun s p hp hs => ?_) _ ⟨rfl, rfl⟩
  by_cases hg : latencyBonusHours (some p.2) * w > 0
  · rw [if_pos hg]
    have hSp : S p.1 = false := by
      by_cases hSp1 : S p.1 = true
      · have h0 := hS p hp hSp1
        rw [h0, zero_mul] at hg
        exact absurd hg (lt_irrefl 0)
      · simpa using hSp1
    have e1 := addCand_filterKeys_self a s hSp (latencyBonusHours (some p.2) * w)
      ("fast reviewer (~" ++ toString (jsRound p.2) ++ "h median)")
    exact ⟨e1.1.trans hs.1, e1.2.trans hs.2⟩
  · rw [if_neg hg]
    exact hs

theorem coStep_eqOn {S : String → Bool} (a : String) (w : ℚ) (rules : List CodeownersRule)
    (cf : List String) {st1 st2 : RankState} (h : EqOnS S st1 st2) :
    EqOnS S (if w > 0 ∧ ¬rules.isEmpty then coBlock a w rules cf st1 else st1)
      (if w > 0 ∧ ¬rules.isEmpty then coBlock a w rules cf st2 else st2) := by
  split_ifs with hg
  · exact coBlock_eqOn a w rules cf h
  · exact h

theorem latStep_eqOn {S : String → Bool} (a : String) (w : ℚ) (lm : List (String × ℚ))
    {st1 st2 : RankState} (h : EqOnS S st1 st2) :
    EqOnS S (if w > 0 ∧ ¬lm.isEmpty then latBlock a w lm st1 else st1)
      (if w > 0 ∧ ¬lm.isEmpty then latBlock a w lm st2 else st2) := by
  split_ifs with hg
  · exact latBlock_eqOn a w lm h
  · exact h

theorem coStep_filterKeys_self {S : String → Bool} (a : String) (w : ℚ)
    (rules : List CodeownersRule) (cf : List String) (st : RankState)
    (hS : ∀ f ∈ cf, ∀ o ∈ ownersForFile rules f, S o = false) :
    filterKeys S (if w > 0 ∧ ¬rules.isEmpty then coBlock a w rules cf st else st).scores =
      filterKeys S st.scores ∧
    filterKeys S (if w > 0 ∧ ¬rules.isEmpty then coBlock a w rules cf st else st).reasons =
      filterKeys S st.reasons := by
  split_ifs with hg
  · exact coBlock_filterKeys_self a w rules cf st hS
  · exact ⟨rfl, rfl⟩

theorem latStep_filterKeys_self {S : String → Bool} (a : String) (w : ℚ)
    (lm : List (String × ℚ)) (st : RankState)
    (hS : ∀ p ∈ lm, S p.1 = true → latencyBonusHours (some p.2) = 0) :
    filterKeys S (if w > 0 ∧ ¬lm.isEmpty then latBlock a w lm st else st).scores =
      filterKeys S st.scores ∧
    filterKeys S (if w > 0 ∧ ¬lm.isEmpty then latBlock a w lm st else st).reasons =
      filterKeys S st.reasons := by
  split_ifs with hg
  · exact latBlock_filterKeys_self a w lm st hS
  · exact ⟨rfl, rfl⟩

theorem rankStateOf_eqOn_ch {S : String → Bool} (fa : List FileAuthorsEntry) (a : String)
    (rules : List CodeownersRule) (cf : List String) (lm : List (String × ℚ))
    {w w' : Weights} (hco : w'.codeowners = w.codeowners) (hlat : w'.latency = w.latency)
    (hS : ∀ e ∈ fa, ∀ l ∈ e.authors.take 10, S l = false) :
    EqOnS S (rankStateOf fa a rules cf lm w) (rankStateOf fa a rules cf lm w') := by
  simp only [rankStateOf]
  rw [hco, hlat]
  have e1 := chBlock_filterKeys_self a w.commitHistory fa ⟨[], []⟩ hS
  have e2 := chBlock_filterKeys_self a w'.commitHistory fa ⟨[], []⟩ hS
  have h1 : EqOnS S (chBlock a w.commitHistory fa ⟨[], []⟩)
      (chBlock a w'.commitHistory fa ⟨[], []⟩) :=
    ⟨e1.1.trans e2.1.symm, e1.2.trans e2.2.symm⟩
  exact latStep_eqOn a w.latency lm (coStep_eqOn a w.codeowners rules cf h1)

theorem rankStateOf_eqOn_co {S : String → Bool} (fa : List FileAuthorsEntry) (a : String)
    (rules : List CodeownersRule) (cf : List String) (lm : List (String × ℚ))
    {w w' : Weights} (hch : w'.commitHistory = w.commitHistory)
    (hlat : w'.latency = w.latency)
    (hS : ∀ f ∈ cf, ∀ o ∈ ownersForFile rules f, S o = false) :
    EqOnS S (rankStateOf fa a rules cf lm w) (rankStateOf fa a rules cf lm w') := by
  simp only [rankStateOf]
  rw [hch, hlat]
  have e1 := coStep_filterKeys_self a w.codeowners rules cf
    (chBlock a w.commitHistory fa ⟨[], []⟩) hS
  have e2 := coStep_filterKeys_self a w'.codeowners rules cf
    (chBlock a w.commitHistory fa ⟨[], []⟩) hS
  exact latStep_eqOn a w.latency lm ⟨e1.1.trans e2.1.symm, e1.2.trans e2.2.symm⟩

theorem rankStateOf_eqOn_lat {S : String → Bool} (fa : List FileAuthorsEntry) (a : String)
    (rules : List CodeownersRule) (cf : List String) (lm : List (String × ℚ))
    {w w' : Weights} (hch : w'.commitHistory = w.commitHistory)
    (hco : w'.codeowners = w.codeowners)
    (hS : ∀ p ∈ lm, S p.1 = true → latencyBonusHours (some p.2) = 0) :
    EqOnS S (rankStateOf fa a rules cf lm w) (rankStateOf fa a rules cf lm w') := by
  simp only [rankStateOf]
  rw [hch, hco]
  have e1 := latStep_filterKeys_self a w.latency lm
    (if w.codeowners > 0 ∧ ¬rules.isEmpty then
      coBlock a w.codeowners rules cf (chBlock a w.commitHistory fa ⟨[], []⟩)
    else chBlock a w.commitHistory fa ⟨[], []⟩) hS
  have e2 := latStep_filterKeys_self a w'.latency lm
    (if w.codeowners > 0 ∧ ¬rules.isEmpty then
      coBlock a w.codeowners rules cf (chBlock a w.commitHistory fa ⟨[], []⟩)
    else chBlock a w.commitHistory fa ⟨[], []⟩) hS
  exact ⟨e1.1.trans e2.1.symm, e1.2.trans e2.2.symm⟩

/-! ### Supporting lemmas: stable sort and filtering -/

theorem insertEntry_sorted {x : String × ℚ} {s : List (String × ℚ)}
    (h : s.Pairwise (fun a b => b.2 ≤ a.2)) :
    (insertEntry x s).Pairwise (fun a b => b.2 ≤ a.2) := by
  induction s with
  | nil => simp [insertEntry]
  | cons y ys ih =>
    rcases List.pairwise_cons.1 h with ⟨hy, hys⟩
    by_cases hxy : x.2 ≥ y.2
    · rw [insertEntry, if_pos hxy]
      refine List.pairwise_cons.2 ⟨?_, h⟩
      intro z hz
      rcases List.mem_cons.1 hz with hz | hz
      · rw [hz]
        exact hxy
      · exact le_trans (hy z hz) hxy
    · rw [insertEntry, if_neg hxy]
      refine List.pairwise_cons.2 ⟨?_, ih hys⟩
      intro z hz
      rcases List.mem_cons.1 ((insertEntry_perm x ys).mem_iff.1 hz) with hz | hz
      · rw [hz]
        exact le_of_lt (lt_of_not_ge hxy)
      · exact hy z hz

theorem sortEntries_sorted (l : List (String × ℚ)) :
    (sortEntries l).Pairwise (fun a b => b.2 ≤ a.2) := by
  induction l with
  | nil => exact List.Pairwise.nil
  | cons x xs ih => exact insertEntry_sorted ih

theorem filter_insertEntry_neg {P : String × ℚ → Bool} {x : String × ℚ} (hP : P x = false)
    (s : List (String × ℚ)) : (insertEntry x s).filter P = s.filter P := by
  induction s with
  | nil => simp [insertEntry, hP]
  | cons y ys ih =>
    by_cases hxy : x.2 ≥ y.2
    · rw [insertEntry, if_pos hxy]
      simp [List.filter_cons, hP]
    · rw [insertEntry, if_neg hxy]
      by_cases hPy : P y = true <;> simp [List.filter_cons, hPy, ih]

theorem filter_insertEntry_pos {P : String × ℚ → Bool} {x : String × ℚ} (hP : P x = true)
    {s : List (String × ℚ)} (hs : s.Pairwise (fun a b => b.2 ≤ a.2)) :
    (insertEntry x s).filter P = insertEntry x (s.filter P) := by
  induction s with
  | nil => simp [insertEntry, hP]
  | cons y ys ih =>
    rcases List.pairwise_cons.1 hs with ⟨hy, hys⟩
    by_cases hxy : x.2 ≥ y.2
    · rw [insertEntry, if_pos hxy]
      by_cases hPy : P y = true
      · simp [List.filter_cons, hP, hPy, insertEntry, hxy]
      · cases hfy : ys.filter P with
        | nil => simp [List.filter_cons, hP, hPy, hfy, insertEntry]
        | cons z zs =>
          have hz : z ∈ ys.filter P := by
            rw [hfy]
            exact List.mem_cons_self _ _
          have hzy : z.2 ≤ y.2 := hy z (List.mem_of_mem_filter hz)
          have hxz : x.2 ≥ z.2 := le_trans hzy hxy
          simp [List.filter_cons, hP, hPy, hfy, insertEntry, hxz]
    · rw [insertEntry, if_neg hxy]
      by_cases hPy : P y = true
      · simp [List.filter_cons, hPy, ih hys, insertEntry, hxy]
      · simp [List.filter_cons, hPy, ih hys]

theorem filter_sortEntries (P : String × ℚ → Bool) (l : List (String × ℚ)) :
    (sortEntries l).filter P = sortEntries (l.filter P) := by
  induction l with
  | nil => rfl
  | cons x xs ih =>
    show (insertEntry x (sortEntries xs)).filter P = sortEntries ((x :: xs).filter P)
    by_cases hP : P x = true
    · rw [filter_insertEntry_pos hP (sortEntries_sorted xs), ih]
      simp [List.filter_cons, hP, sortEntries]
    · rw [filter_insertEntry_neg (by simpa using hP), ih]
      simp [List.filter_cons, hP]

/-! ### Claims -/

/-- C1: for every ordered rule list and file path, `ownersForFile` returns
exactly the owners of the last rule (in original file order) whose
normalized pattern matches the path, replacing rather than merging owner
sets; prepending a non-matching rule never changes the result; appending a
matching rule makes the result that rule's owners; and with no matching rule
the result is empty. -/
theorem claim1_last_match_wins :
    (∀ (rules : List CodeownersRule) (path : String),
      ownersForFile rules path =
        ((rules.reverse.find? (fun r => ruleMatches r path)).map (fun r => r.owners)).getD []) ∧
    (∀ (r : CodeownersRule) (rules : List CodeownersRule) (path : String),
      ruleMatches r path = false →
        ownersForFile (r :: rules) path = ownersForFile rules path) ∧
    (∀ (rules : List CodeownersRule) (r : CodeownersRule) (path : String),
      ruleMatches r path = true → ownersForFile (rules ++ [r]) path = r.owners) ∧
    (∀ (rules : List CodeownersRule) (path : String),
      (∀ r ∈ rules, ruleMatches r path = false) → ownersForFile rules path = []) := by
  refine ⟨ownersForFile_eq, ?_, ?_, ?_⟩
  · intro r rules path hm
    rw [ownersForFile_eq, ownersForFile_eq, List.reverse_cons, List.find?_append]
    cases h : rules.reverse.find? (fun r => ruleMatches r path) <;> simp [h, hm]
  · intro rules r path hm
    rw [ownersForFile_eq, List.reverse_append]
    simp [List.find?, hm]
  · intro rules path hm
    rw [ownersForFile_eq]
    have hn : rules.reverse.find? (fun r => ruleMatches r path) = none :=
      List.find?_eq_none.2 (fun x hx => by simp [hm x (List.mem_reverse.1 hx)])
    simp [hn]

theorem claim1_witness :
    (ruleMatches ⟨"/src/**", ["alice"]⟩ "notes.md" = false ∧
      ownersForFile [⟨"/src/**", ["alice"]⟩, ⟨"*.md", ["bob"]⟩] "notes.md" =
        ownersForFile [⟨"*.md", ["bob"]⟩] "notes.md") ∧
    (ruleMatches ⟨"*.md", ["dana"]⟩ "notes.md" = true ∧
      ownersForFile ([⟨"*.md", ["bob"]⟩] ++ [⟨"*.md", ["dana"]⟩]) "notes.md" = ["dana"]) ∧
    ((∀ r ∈ [(⟨"/src/**", ["alice"]⟩ : CodeownersRule)], ruleMatches r "notes.md" = false) ∧
      ownersForFile [⟨"/src/**", ["alice"]⟩] "notes.md" = []) :=
  ⟨⟨by decide, claim1_last_match_wins.2.1 _ _ _ (by decide)⟩,
   ⟨by decide, claim1_last_match_wins.2.2.1 _ _ _ (by decide)⟩,
   ⟨by decide, claim1_last_match_wins.2.2.2 _ _ (by decide)⟩⟩

/-- C3: evaluation of the anchoring behaviour at the divergence point.  The
normalization maps "/Makefile" to "Makefile" (the code's comment says a
leading "/" anchors to the repository root), but the matcher is called with
`matchBase: true`, under which a single-segment pattern is matched against
the basename of the path: so the pattern "/Makefile" matches "Makefile" and
also matches "sub/Makefile", contradicting root anchoring.  Unanchored
patterns do match at any depth, dotfiles included, case-sensitively, and
anchoring does hold for anchored patterns with more than one segment. -/
theorem claim3_anchor_matchBase_eval :
    normalizeCodeownersPattern "/Makefile" = "Makefile" ∧
    minimatchB "Makefile" (normalizeCodeownersPattern "/Makefile") = true ∧
    minimatchB "sub/Makefile" (normalizeCodeownersPattern "/Makefile") = true ∧
    ownersForFile [⟨"/Makefile", ["alice"]⟩] "sub/Makefile" = ["alice"] ∧
    minimatchB "a/b/.notes.md" (normalizeCodeownersPattern "*.md") = true ∧
    minimatchB "README.MD" (normalizeCodeownersPattern "*.md") = false ∧
    minimatchB "deep/dir/README.md" (normalizeCodeownersPattern "*.md") = true ∧
    minimatchB "src/app.js" (normalizeCodeownersPattern "/src/**") = true ∧
    minimatchB "other/src/app.js" (normalizeCodeownersPattern "/src/**") = false := by
  decide

/-- C5 counterexample: the latency bonus is not strictly monotone in the
median — two distinct medians inside the fastest tier receive the same
bonus. -/
theorem claim5_counterexample :
    ¬ (∀ m1 m2 : ℚ, m1 < m2 →
        latencyBonusHours (some m2) < latencyBonusHours (some m1)) := by
  intro h
  have h12 : (1 : ℚ) < 2 := by norm_num
  have := h 1 2 h12
  rw [show latencyBonusHours (some 1) = 6 by norm_num [latencyBonusHours],
    show latencyBonusHours (some 2) = 6 by norm_num [latencyBonusHours]] at this
  exact absurd this (lt_irrefl 6)

/-- C5 (amended): the latency bonus is weakly decreasing in the median, with
tier thresholds at 4, 12, 24 and 48 hours whose values 6, 4, 2, 1 strictly
decrease from tier to tier, and a zero bonus for every median above 48
hours. -/
theorem claim5_amended_step_bonus :
    (∀ m1 m2 : ℚ, m1 ≤ m2 → latencyBonusHours (some m2) ≤ latencyBonusHours (some m1)) ∧
    (∀ m : ℚ, 48 < m → latencyBonusHours (some m) = 0) ∧
    latencyBonusHours (some 4) = 6 ∧ latencyBonusHours (some 12) = 4 ∧
    latencyBonusHours (some 24) = 2 ∧ latencyBonusHours (some 48) = 1 := by
  refine ⟨?_, ?_, by norm_num [latencyBonusHours], by norm_num [latencyBonusHours],
    by norm_num [latencyBonusHours], by norm_num [latencyBonusHours]⟩
  · intro m1 m2 h
    simp only [latencyBonusHours]
    split_ifs <;> norm_num <;> linarith
  · intro m h
    have h4 : ¬ m ≤ 4 := by linarith
    have h12 : ¬ m ≤ 12 := by linarith
    have h24 : ¬ m ≤ 24 := by linarith
    have h48 : ¬ m ≤ 48 := by linarith
    simp [latencyBonusHours, h4, h12, h24, h48]

theorem claim5_amended_witness :
    (1 : ℚ) ≤ 2 ∧ latencyBonusHours (some 2) ≤ latencyBonusHours (some 1) ∧
    (48 : ℚ) < 49 ∧ latencyBonusHours (some 49) = 0 :=
  ⟨by norm_num, claim5_amended_step_bonus.1 1 2 (by norm_num),
   by norm_num, claim5_amended_step_bonus.2.1 49 (by norm_num)⟩

/-- C6: the confidence label is a pure function of top score, second score
and coverage fraction, evaluated as ordered thresholds with first match
winning (top ≥ 12 ∧ coverage ≥ 0.5 ∧ separation ≥ 0.25 → High; else top ≥ 6
∧ coverage ≥ 0.25 → Medium; else Low), where separation is
(top − second)/top for positive top and 0 otherwise; in particular
(14, 9, 0.6) gives High, (7, 6, 0.3) gives Medium, and a top score of 3
gives Low whatever the other inputs. -/
theorem claim6_confidence_thresholds :
    (∀ (ranked : List Candidate) (changedFiles : List String)
        (codeownersRules : List CodeownersRule) (fileAuthors : List FileAuthorsEntry),
      computeConfidence ranked changedFiles codeownersRules fileAuthors =
        confidenceBuckets (((ranked[0]?).map (fun c => c.score)).getD 0)
          (((ranked[1]?).map (fun c => c.score)).getD 0)
          (coverageOf changedFiles codeownersRules fileAuthors)) ∧
    (∀ top second coverage : ℚ,
      confidenceBuckets top second coverage =
        if 12 ≤ top ∧ (1 / 2 : ℚ) ≤ coverage ∧
            (1 / 4 : ℚ) ≤ (if 0 < top then (top - second) / top else 0) then "High"
        else if 6 ≤ top ∧ (1 / 4 : ℚ) ≤ coverage then "Medium"
        else "Low") ∧
    confidenceBuckets 14 9 (6 / 10) = "High" ∧
    confidenceBuckets 7 6 (3 / 10) = "Medium" ∧
    (∀ second coverage : ℚ, confidenceBuckets 3 second coverage = "Low") := by
  refine ⟨fun _ _ _ _ => rfl, fun _ _ _ => rfl, ?_, ?_, ?_⟩
  · simp only [confidenceBuckets]
    norm_num
  · simp only [confidenceBuckets]
    norm_num
  · intro s c
    simp only [confidenceBuckets]
    norm_num

/-- C8: `median` maps [2,4] to 3 and [1,2,9] to 2, and the empty list to the
no-signal sentinel `null` rather than zero; consequently a reviewer with no
valid latency sample is absent from the latency-profile map. -/
theorem claim8_median_and_absence :
    median [2, 4] = some 3 ∧ median [1, 2, 9] = some 2 ∧ median ([] : List ℚ) = none ∧
    (∀ (pulls : List ClosedPR) (since : ℚ) (login : String),
      mapGet (collectLatencySamples pulls since) login = none →
      mapGet (computeReviewerLatencyHours pulls since) login = none) := by
  refine ⟨?_, ?_, rfl, ?_⟩
  · norm_num [median, sortAsc, insertAsc]
  · norm_num [median, sortAsc, insertAsc]
  · intro pulls since login h
    have hall : ∀ p ∈ collectLatencySamples pulls since, p.1 ≠ login := mapGet_eq_none_iff.1 h
    unfold computeReviewerLatencyHours
    refine @foldl_preserves_mem _ _ (fun out => mapGet out login = none) _ _
      (fun out la hla hout => ?_) _ rfl
    cases hm : median la.2 with
    | none => simpa [hm] using hout
    | some m =>
      simp only [hm]
      rw [mapGet_mapSet]
      simp [hall la hla, hout]

theorem claim8_witness :
    mapGet (collectLatencySamples [⟨0, some 1, none, some [⟨"ghost", none⟩]⟩] 0) "ghost" = none ∧
    mapGet (computeReviewerLatencyHours [⟨0, some 1, none, some [⟨"ghost", none⟩]⟩] 0) "ghost" =
      none :=
  ⟨by decide, claim8_median_and_absence.2.2.2 _ 0 "ghost" (by decide)⟩

/-- Shared concrete evaluation of the ranking scenario of §8 of the spec. -/
theorem rankScenario_eval :
    rankCandidates [] "carol" [⟨"/src/**", ["alice"]⟩, ⟨"*.md", ["bob"]⟩]
      ["src/app.js", "README.md"] [] ⟨1, 4, 1⟩ =
      [⟨"alice", 4, ["CODEOWNERS"]⟩, ⟨"bob", 4, ["CODEOWNERS"]⟩] := by
  have h1 : ownersForFile [⟨"/src/**", ["alice"]⟩, ⟨"*.md", ["bob"]⟩] "src/app.js" =
      ["alice"] := by decide
  have h2 : ownersForFile [⟨"/src/**", ["alice"]⟩, ⟨"*.md", ["bob"]⟩] "README.md" =
      ["bob"] := by decide
  have hba : isBotLogin "alice" = false := by decide
  have hbb : isBotLogin "bob" = false := by decide
  simp [rankCandidates, rankStateOf, chBlock, coBlock, latBlock, addCand, mapGet, mapSet,
    sortEntries, insertEntry, h1, h2, hba, hbb, List.foldl]

/-- C2: no element of a ranked result is ever the PR author or a bot-like
login, whatever the inputs and weights. -/
theorem claim2_never_author_or_bot :
    ∀ (fileAuthors : List FileAuthorsEntry) (prAuthor : String)
      (codeownersRules : List CodeownersRule) (changedFiles : List String)
      (latencyMap : List (String × ℚ)) (weights : Weights) (c : Candidate),
      c ∈ rankCandidates fileAuthors prAuthor codeownersRules changedFiles latencyMap weights →
      isBotLogin c.login = false ∧ c.login ≠ prAuthor := by
  intro fa a rules cf lm w c hc
  unfold rankCandidates at hc
  rcases List.mem_map.1 hc with ⟨e, he, hmk⟩
  have he2 := (sortEntries_perm (rankStateOf fa a rules cf lm w).scores).mem_iff.1 he
  have hE := rankStateOf_good fa a rules cf lm w e he2
  subst hmk
  exact hE

theorem claim2_witness :
    isBotLogin (Candidate.login ⟨"alice", 4, ["CODEOWNERS"]⟩) = false ∧
      Candidate.login ⟨"alice", 4, ["CODEOWNERS"]⟩ ≠ "carol" :=
  claim2_never_author_or_bot [] "carol" [⟨"/src/**", ["alice"]⟩, ⟨"*.md", ["bob"]⟩]
    ["src/app.js", "README.md"] [] ⟨1, 4, 1⟩ ⟨"alice", 4, ["CODEOWNERS"]⟩
    (by rw [rankScenario_eval]; exact List.mem_cons_self _ _)

/-- C4: on the end-to-end scenario (rule text "/src/** alice\n*.md bob",
changed files src/app.js and README.md, no contributor or latency signal,
weights 1/4/1, PR author carol) the ranked result is exactly alice with 4
points before bob with 4 points, the tie broken by first-seen order. -/
theorem claim4_end_to_end :
    (rankCandidates [] "carol" (parseCodeowners (some "/src/** alice\n*.md bob"))
      ["src/app.js", "README.md"] [] ⟨1, 4, 1⟩).map (fun c => (c.login, c.score)) =
      [("alice", 4), ("bob", 4)] := by
  have hp : parseCodeowners (some "/src/** alice\n*.md bob") =
      [⟨"/src/**", ["alice"]⟩, ⟨"*.md", ["bob"]⟩] := by decide
  rw [hp, rankScenario_eval]
  rfl

/-- C9: when every award across the three signals targets only the PR author
or bot-like logins, the ranked result is empty, and rendering an empty
suggestion list produces an explicit "No strong candidates" message. -/
theorem claim9_empty_result_and_message :
    (∀ (fileAuthors : List FileAuthorsEntry) (prAuthor : String)
        (codeownersRules : List CodeownersRule) (changedFiles : List String)
        (latencyMap : List (String × ℚ)) (weights : Weights),
      (∀ e ∈ fileAuthors, ∀ l ∈ e.authors.take 10, isBotLogin l = true ∨ l = prAuthor) →
      (∀ f ∈ changedFiles, ∀ o ∈ ownersForFile codeownersRules f,
        isBotLogin o = true ∨ o = prAuthor) →
      (∀ p ∈ latencyMap, isBotLogin p.1 = true ∨ p.1 = prAuthor) →
      rankCandidates fileAuthors prAuthor codeownersRules changedFiles latencyMap weights
        = []) ∧
    (∀ (lookbackDays maxFiles fileCount : Nat) (confidence : String),
      jsIncludes (formatComment [] lookbackDays maxFiles fileCount confidence)
        "No strong candidates" = true) := by
  constructor
  · intro fa a rules cf lm w h1 h2 h3
    have hst : rankStateOf fa a rules cf lm w = ⟨[], []⟩ := by
      simp only [rankStateOf, chBlock_filtered a w.commitHistory fa _ h1]
      split_ifs
      · rw [coBlock_filtered _ _ _ _ _ h2, latBlock_filtered _ _ _ _ h3]
      · rw [latBlock_filtered _ _ _ _ h3]
      · rw [coBlock_filtered _ _ _ _ _ h2]
      · rfl
    unfold rankCandidates
    rw [hst]
    rfl
  · intro d mf fc conf
    unfold formatComment jsIncludes
    simp only [List.isEmpty_nil, if_true]
    rw [String.data_append]
    exact containsSubChars_append_of_right _ (by decide)

theorem claim9_witness :
    rankCandidates [⟨"f.js", ["carol", "dependabot"]⟩] "carol" [⟨"*.js", ["renovate[bot]"]⟩]
      ["f.js"] [("github-actions", 1)] ⟨1, 4, 1⟩ = [] ∧
    jsIncludes (formatComment [] 90 50 1 "Low") "No strong candidates" = true :=
  ⟨claim9_empty_result_and_message.1 _ _ _ _ _ _ (by decide) (by decide) (by decide),
   claim9_empty_result_and_message.2 90 50 1 "Low"⟩

/-- C10: the commit-history pass has no positive-weight guard, unlike the
ownership and latency passes: with all three weights zero, every non-author
non-bot login among the first ten contributors of some file still appears in
the ranked result, with score 0 and the "recent commits" reason. -/
theorem claim10_commit_history_without_weight :
    ∀ (fileAuthors : List FileAuthorsEntry) (prAuthor : String)
      (codeownersRules : List CodeownersRule) (changedFiles : List String)
      (latencyMap : List (String × ℚ)) (login : String),
      (∃ e ∈ fileAuthors, login ∈ e.authors.take 10) →
      isBotLogin login = false → login ≠ prAuthor →
      ∃ c ∈ rankCandidates fileAuthors prAuthor codeownersRules changedFiles latencyMap
          ⟨0, 0, 0⟩,
        c.login = login ∧ c.score = 0 ∧ "recent commits" ∈ c.reasons := by
  intro fa a rules cf lm login hex hb ha
  have hstate : rankStateOf fa a rules cf lm ⟨0, 0, 0⟩ = chBlock a 0 fa ⟨[], []⟩ := by
    simp [rankStateOf]
  have hmark := chBlock_mark a 0 fa login hb ha hex ⟨[], []⟩
  have hzero := chBlock_zero a fa ⟨[], []⟩ (fun p hp => absurd hp (List.not_mem_nil p))
  rcases hmark with ⟨hsome, rs, hrs, hmem⟩
  cases hv : mapGet (chBlock a 0 fa (⟨[], []⟩ : RankState)).scores login with
  | none => rw [hv] at hsome; simp at hsome
  | some v =>
    have hv0 : v = 0 := hzero _ (mapGet_mem hv)
    subst hv0
    refine ⟨⟨login, 0, rs⟩, ?_, rfl, rfl, hmem⟩
    unfold rankCandidates
    rw [hstate]
    have hm : (login, (0 : ℚ)) ∈ sortEntries (chBlock a 0 fa (⟨[], []⟩ : RankState)).scores :=
      (sortEntries_perm _).mem_iff.2 (mapGet_mem hv)
    have himg := List.mem_map_of_mem
      (fun e : String × ℚ =>
        (⟨e.1, e.2, (mapGet (chBlock a 0 fa (⟨[], []⟩ : RankState)).reasons e.1).getD []⟩ :
          Candidate)) hm
    simpa [hrs] using himg

/-- C7: for every fixed input, increasing weights never decreases the score
of any candidate in the result (first conjunct, stated for componentwise
increase, which subsumes increasing any single weight while holding the
other two fixed), and increasing any single weight never changes the
relative order of two candidates whose entire score derives from the other
two signals only: the restriction of the ranked list to two candidates
receiving nothing from the increased signal is unchanged (one conjunct per
signal). -/
theorem claim7_weight_monotonic :
    (∀ (fileAuthors : List FileAuthorsEntry) (prAuthor : String)
        (codeownersRules : List CodeownersRule) (changedFiles : List String)
        (latencyMap : List (String × ℚ)) (w w' : Weights),
      0 ≤ w.commitHistory → 0 ≤ w.codeowners → 0 ≤ w.latency →
      w.commitHistory ≤ w'.commitHistory → w.codeowners ≤ w'.codeowners →
      w.latency ≤ w'.latency →
      ∀ c ∈ rankCandidates fileAuthors prAuthor codeownersRules changedFiles latencyMap w,
        ∃ c' ∈ rankCandidates fileAuthors prAuthor codeownersRules changedFiles latencyMap w',
          c'.login = c.login ∧ c.score ≤ c'.score) ∧
    (∀ (fileAuthors : List FileAuthorsEntry) (prAuthor : String)
        (codeownersRules : List CodeownersRule) (changedFiles : List String)
        (latencyMap : List (String × ℚ)) (w w' : Weights) (p q : String),
      w.commitHistory ≤ w'.commitHistory → w'.codeowners = w.codeowners →
      w'.latency = w.latency →
      noChSignal fileAuthors p → noChSignal fileAuthors q →
      (rankCandidates fileAuthors prAuthor codeownersRules changedFiles latencyMap
          w').filter (fun c => c.login == p || c.login == q) =
        (rankCandidates fileAuthors prAuthor codeownersRules changedFiles latencyMap
          w).filter (fun c => c.login == p || c.login == q)) ∧
    (∀ (fileAuthors : List FileAuthorsEntry) (prAuthor : String)
        (codeownersRules : List CodeownersRule) (changedFiles : List String)
        (latencyMap : List (String × ℚ)) (w w' : Weights) (p q : String),
      w.codeowners ≤ w'.codeowners → w'.commitHistory = w.commitHistory →
      w'.latency = w.latency →
      noCoSignal codeownersRules changedFiles p → noCoSignal codeownersRules changedFiles q →
      (rankCandidates fileAuthors prAuthor codeownersRules changedFiles latencyMap
          w').filter (fun c => c.login == p || c.login == q) =
        (rankCandidates fileAuthors prAuthor codeownersRules changedFiles latencyMap
          w).filter (fun c => c.login == p || c.login == q)) ∧
    (∀ (fileAuthors : List FileAuthorsEntry) (prAuthor : String)
        (codeownersRules : List CodeownersRule) (changedFiles : List String)
        (latencyMap : List (String × ℚ)) (w w' : Weights) (p q : String),
      w.latency ≤ w'.latency → w'.commitHistory = w.commitHistory →
      w'.codeowners = w.codeowners →
      noLatSignal latencyMap p → noLatSignal latencyMap q →
      (rankCandidates fileAuthors prAuthor codeownersRules changedFiles latencyMap
          w').filter (fun c => c.login == p || c.login == q) =
        (rankCandidates fileAuthors prAuthor codeownersRules changedFiles latencyMap
          w).filter (fun c => c.login == p || c.login == q)) := by
  have hOrder : ∀ (fa : List FileAuthorsEntry) (a : String) (rules : List CodeownersRule)
      (cf : List String) (lm : List (String × ℚ)) (w w' : Weights) (p q : String),
      EqOnS (fun x => x == p || x == q) (rankStateOf fa a rules cf lm w)
        (rankStateOf fa a rules cf lm w') →
      (rankCandidates fa a rules cf lm w').filter
          (fun c => c.login == p || c.login == q) =
        (rankCandidates fa a rules cf lm w).filter
          (fun c => c.login == p || c.login == q) := by
    intro fa a rules cf lm w w' p q hEq
    unfold rankCandidates
    rw [List.filter_map, List.filter_map]
    show List.map (fun e : String × ℚ =>
        (⟨e.1, e.2, (mapGet (rankStateOf fa a rules cf lm w').reasons e.1).getD []⟩ :
          Candidate))
      ((sortEntries (rankStateOf fa a rules cf lm w').scores).filter
        (fun e : String × ℚ => e.1 == p || e.1 == q)) =
      List.map (fun e : String × ℚ =>
        (⟨e.1, e.2, (mapGet (rankStateOf fa a rules cf lm w).reasons e.1).getD []⟩ :
          Candidate))
      ((sortEntries (rankStateOf fa a rules cf lm w).scores).filter
        (fun e : String × ℚ => e.1 == p || e.1 == q))
    rw [filter_sortEntries, filter_sortEntries]
    have hA : (rankStateOf fa a rules cf lm w).scores.filter
        (fun e : String × ℚ => e.1 == p || e.1 == q) =
        (rankStateOf fa a rules cf lm w').scores.filter
          (fun e : String × ℚ => e.1 == p || e.1 == q) := hEq.1
    rw [← hA]
    refine List.map_congr_left (fun e he => ?_)
    have heA := (sortEntries_perm _).mem_iff.1 he
    have hSe : ((fun x => x == p || x == q) e.1) = true := (List.mem_filter.1 heA).2
    have hre : mapGet (rankStateOf fa a rules cf lm w').reasons e.1 =
        mapGet (rankStateOf fa a rules cf lm w).reasons e.1 := by
      rw [← @mapGet_filterKeys _ (fun x => x == p || x == q) e.1 hSe
          (rankStateOf fa a rules cf lm w').reasons,
        ← @mapGet_filterKeys _ (fun x => x == p || x == q) e.1 hSe
          (rankStateOf fa a rules cf lm w).reasons, hEq.2]
    rw [hre]
  refine ⟨?_, ?_, ?_, ?_⟩
  · intro fa a rules cf lm w w' h1 h2 h3 h4 h5 h6 c hc
    unfold rankCandidates at hc ⊢
    rcases List.mem_map.1 hc with ⟨e, he, hmk⟩
    subst hmk
    have hrel := rankStateOf_rel fa a rules cf lm h2 h3 h4 h5 h6
    have hnd := rankStateOf_keysNodup fa a rules cf lm w
    have he2 : e ∈ (rankStateOf fa a rules cf lm w).scores :=
      (sortEntries_perm _).mem_iff.1 he
    have hge : mapGet (rankStateOf fa a rules cf lm w).scores e.1 = some e.2 :=
      mapGet_of_mem_nodup hnd he2
    have hpres := hrel.1 e.1 (by rw [hge]; exact fun hcon => Option.noConfusion hcon)
    cases hv : mapGet (rankStateOf fa a rules cf lm w').scores e.1 with
    | none => exact absurd hv hpres
    | some v =>
      have hscore : e.2 ≤ v := by
        have hle := hrel.2 e.1
        rw [hge, hv] at hle
        simpa using hle
      refine ⟨⟨e.1, v, (mapGet (rankStateOf fa a rules cf lm w').reasons e.1).getD []⟩,
        ?_, rfl, hscore⟩
      exact List.mem_map_of_mem _ ((sortEntries_perm _).mem_iff.2 (mapGet_mem hv))
  · intro fa a rules cf lm w w' p q hle hco hlat hp hq
    refine hOrder fa a rules cf lm w w' p q ?_
    refine @rankStateOf_eqOn_ch (fun x => x == p || x == q) fa a rules cf lm w w' hco hlat ?_
    intro e he l hl
    have h1 : l ≠ p := fun hc => hp e he (hc ▸ hl)
    have h2 : l ≠ q := fun hc => hq e he (hc ▸ hl)
    simp [h1, h2]
  · intro fa a rules cf lm w w' p q hle hch hlat hp hq
    refine hOrder fa a rules cf lm w w' p q ?_
    refine @rankStateOf_eqOn_co (fun x => x == p || x == q) fa a rules cf lm w w' hch hlat ?_
    intro f hf o ho
    have h1 : o ≠ p := fun hc => hp f hf (hc ▸ ho)
    have h2 : o ≠ q := fun hc => hq f hf (hc ▸ ho)
    simp [h1, h2]
  · intro fa a rules cf lm w w' p q hle hch hco hp hq
    refine hOrder fa a rules cf lm w w' p q ?_
    refine @rankStateOf_eqOn_lat (fun x => x == p || x == q) fa a rules cf lm w w' hch hco ?_
    intro pr hpr hS
    have : pr.1 = p ∨ pr.1 = q := by
      rcases Bool.or_eq_true_iff.1 hS with h | h
      · exact Or.inl (by simpa using h)
      · exact Or.inr (by simpa using h)
    rcases this with h | h
    · exact hp pr hpr h
    · exact hq pr hpr h

theorem claim7_witness :
    (∃ c' ∈ rankCandidates [] "carol" [⟨"/src/**", ["alice"]⟩, ⟨"*.md", ["bob"]⟩]
        ["src/app.js", "README.md"] [] ⟨2, 4, 1⟩,
      c'.login = Candidate.login ⟨"alice", 4, ["CODEOWNERS"]⟩ ∧
        Candidate.score ⟨"alice", 4, ["CODEOWNERS"]⟩ ≤ c'.score) ∧
    (rankCandidates [] "carol" [⟨"/src/**", ["alice"]⟩, ⟨"*.md", ["bob"]⟩]
        ["src/app.js", "README.md"] [] ⟨2, 4, 1⟩).filter
        (fun c => c.login == "alice" || c.login == "bob") =
      (rankCandidates [] "carol" [⟨"/src/**", ["alice"]⟩, ⟨"*.md", ["bob"]⟩]
        ["src/app.js", "README.md"] [] ⟨1, 4, 1⟩).filter
        (fun c => c.login == "alice" || c.login == "bob") :=
  ⟨claim7_weight_monotonic.1 [] "carol" [⟨"/src/**", ["alice"]⟩, ⟨"*.md", ["bob"]⟩]
      ["src/app.js", "README.md"] [] ⟨1, 4, 1⟩ ⟨2, 4, 1⟩ (by norm_num) (by norm_num)
      (by norm_num) (by norm_num) (by norm_num) (by norm_num) ⟨"alice", 4, ["CODEOWNERS"]⟩
      (by rw [rankScenario_eval]; exact List.mem_cons_self _ _),
   claim7_weight_monotonic.2.1 [] "carol" [⟨"/src/**", ["alice"]⟩, ⟨"*.md", ["bob"]⟩]
      ["src/app.js", "README.md"] [] ⟨1, 4, 1⟩ ⟨2, 4, 1⟩ "alice" "bob" (by norm_num) rfl rfl
      (fun e he => absurd he (List.not_mem_nil e))
      (fun e he => absurd he (List.not_mem_nil e))⟩

theorem claim10_witness :
    ∃ c ∈ rankCandidates [⟨"a.js", ["dave"]⟩] "carol" [] [] [] ⟨0, 0, 0⟩,
      c.login = "dave" ∧ c.score = 0 ∧ "recent commits" ∈ c.reasons :=
  claim10_commit_history_without_weight [⟨"a.js", ["dave"]⟩] "carol" [] [] [] "dave"
    ⟨⟨"a.js", ["dave"]⟩, List.mem_cons_self _ _, by decide⟩ (by decide) (by decide)

end SuggestReviewer
